import Mathlib

/-!
# crcsum: checksum manifest scan and verification

A shallow embedding of `crc32.go` (package `main` of crcsum) together with the
standard-library routines it calls (`hash/crc32`, `io.Copy`, `sort.Slice`,
`filepath.WalkDir`, `encoding/json`), followed by the properties proved about
it.

Conventions
* a Go `byte` is a `Fin 256`, a Go `string` / `[]byte` is a `List Byte`;
* a Go `uint32` is a `Nat`, every value built below stays under `2 ^ 32`;
* the file system is an explicit value passed to the functions that touch it.
-/

namespace Crcsum

/-! ## Bytes and strings -/

/-- A Go `byte`. -/
abbrev Byte := Fin 256

/-- A Go `string`, seen as its sequence of bytes. -/
abbrev GoString := List Byte

/-! ## `hash/crc32` (Go standard library, portable implementation) -/

/-- The constant `crc32.IEEE`: the reversed IEEE polynomial. -/
def IEEE : Nat := 0xedb88320

/-- Body of the inner loop of `simplePopulateTable`:
`if crc&1 == 1 { crc = (crc >> 1) ^ poly } else { crc >>= 1 }`. -/
def populateStep (poly crc : Nat) : Nat :=
  if crc &&& 1 = 1 then (crc >>> 1) ^^^ poly else crc >>> 1

/-- The inner loop of `simplePopulateTable`, run `j` times. -/
def populateLoop (poly : Nat) : Nat → Nat → Nat
  | 0, crc => crc
  | j + 1, crc => populateLoop poly j (populateStep poly crc)

/-- Go `simpleMakeTable`: entry `i` is `uint32(i)` after eight rounds of the
inner loop. -/
def simpleMakeTable (poly : Nat) : List Nat :=
  (List.range 256).map (fun i => populateLoop poly 8 i)

/-- Go `^crc` on a `uint32`. -/
def not32 (crc : Nat) : Nat := crc ^^^ 0xffffffff

/-- Body of the loop of `simpleUpdate`: `crc = tab[byte(crc)^v] ^ (crc >> 8)`. -/
def updateStep (tab : List Nat) (crc : Nat) (v : Byte) : Nat :=
  tab.getD ((crc % 256) ^^^ v.val) 0 ^^^ (crc >>> 8)

/-- Go `simpleUpdate`. -/
def simpleUpdate (crc : Nat) (tab : List Nat) (p : List Byte) : Nat :=
  not32 (p.foldl (updateStep tab) (not32 crc))

/-- The `digest` of `hash/crc32`: running value and table. -/
structure digest where
  crc : Nat
  tab : List Nat

/-- Go `crc32.New`. -/
def digest.New (tab : List Nat) : digest := { crc := 0, tab := tab }

/-- Go `(*digest).Write`; it never fails. -/
def digest.Write (d : digest) (p : List Byte) : digest :=
  { d with crc := simpleUpdate d.crc d.tab p }

/-- Go `(*digest).Sum32`. -/
def digest.Sum32 (d : digest) : Nat := d.crc

/-! ## The reference CRC-32/IEEE -/

/-- One bit of the reference computation: shift right, and fold the reversed
polynomial `0xEDB88320` in when the bit shifted out was set. -/
def referenceBit (r : Nat) : Nat :=
  (r >>> 1) ^^^ (if r % 2 = 1 then 0xEDB88320 else 0)

/-- One byte of the reference computation: add the byte to the low end of the
register, then process eight bits. -/
def referenceByte (r : Nat) (b : Byte) : Nat :=
  referenceBit^[8] (r ^^^ b.val)

/-- The reference CRC-32/IEEE of a byte sequence (bit at a time, least
significant bit first, register preset to all ones, result complemented); this
is the definition the manifest format refers to, not the program's code. -/
def crc32Reference (b : List Byte) : Nat :=
  (b.foldl referenceByte 0xFFFFFFFF) ^^^ 0xFFFFFFFF

/-! ## The file system as seen by one run -/

/-- What the program can observe of one path. -/
inductive FileState where
  /-- Nothing there: `os.Stat` and `os.Open` both fail. -/
  | missing
  /-- A directory: `os.Stat` succeeds with `IsDir()`, reading it fails. -/
  | directory
  /-- A non-directory that cannot be opened: `os.Stat` succeeds, `os.Open` fails. -/
  | noAccess
  /-- A non-directory that opens; successive reads return `reads`, after which
  the stream ends (`readError = false`) or a read fails (`readError = true`). -/
  | regular (reads : List (List Byte)) (readError : Bool)
  deriving DecidableEq, Repr

/-- A file system: the state of every path relative to the working directory. -/
abbrev FS := GoString → FileState

/-- Go `os.Stat` followed by `IsDir()`: `none` when the call fails. -/
def osStat (fs : FS) (name : GoString) : Option Bool :=
  match fs name with
  | .missing => none
  | .directory => some true
  | .noAccess => some false
  | .regular _ _ => some false

/-- An open file: the chunks its reads return and whether a read then fails. -/
structure File where
  reads : List (List Byte)
  readError : Bool

/-- Go `os.Open`: `none` when the call fails. A directory opens, but reading
it fails at once. -/
def osOpen (fs : FS) (name : GoString) : Option File :=
  match fs name with
  | .missing => none
  | .noAccess => none
  | .directory => some { reads := [], readError := true }
  | .regular reads readError => some { reads := reads, readError := readError }

/-- Go `io.Copy(hash, file)`: every chunk read is written to the digest; the
result is `none` when a read fails. -/
def ioCopy (hash : digest) (file : File) : Option digest :=
  if file.readError then none else some (file.reads.foldl digest.Write hash)

/-- Go `calculateCRC32` (crc32.go, lines 239-255). -/
def calculateCRC32 (fs : FS) (filename : GoString) : Nat :=
  match osOpen fs filename with
  | none => 0
  | some file =>
    let table := simpleMakeTable IEEE
    let hash := digest.New table
    match ioCopy hash file with
    | none => 0
    | some hash => hash.Sum32

/-- The content of a file that opens and all of whose reads succeed. -/
def fullContent (fs : FS) (filename : GoString) : Option (List Byte) :=
  match fs filename with
  | .regular reads false => some reads.flatten
  | _ => none

/-! ## Data model (crc32.go, lines 20-40) -/

/-- Go constant `Version`. -/
def Version : String := "1.0.0"

/-- Go constant `ZlibVersion`. -/
def ZlibVersion : String := "1.2.11"

/-- Go `FileEntry`. -/
structure FileEntry where
  Filename : GoString
  CRC : Nat
  deriving DecidableEq, Repr

/-- Go `Data`, the manifest. -/
structure Data where
  Files : List FileEntry
  Version : String
  ZlibVersion : String
  deriving DecidableEq, Repr

/-- Go `jobResult`; `err = none` is Go's `err == nil`. -/
structure jobResult where
  entry : FileEntry
  err : Option String
  deriving DecidableEq, Repr

/-- String comparison `a < b` of Go: byte-wise lexicographic. -/
def stringLess : GoString → GoString → Bool
  | [], [] => false
  | [], _ :: _ => true
  | _ :: _, [] => false
  | a :: as, b :: bs =>
    if a.val < b.val then true
    else if b.val < a.val then false
    else stringLess as bs

/-! ## Gathering the file paths (crc32.go, lines 99-137) -/

mutual
/-- A node of the directory tree under the working directory, as `os.ReadDir`
and `fs.DirEntry` show it. -/
inductive DirNode where
  /-- Any entry whose `IsDir()` is false. -/
  | file
  /-- A directory: what `os.ReadDir` returns for it, entries and error. -/
  | dir (entries : DirEntries) (readError : Bool)
/-- The entries of a directory, in the order `os.ReadDir` returns them. -/
inductive DirEntries where
  | nil
  | cons (name : GoString) (node : DirNode) (rest : DirEntries)
end

/-- The errors a `fs.WalkDirFunc` may see or return. -/
inductive WalkError where
  | SkipDir
  | SkipAll
  /-- The error of a failed `os.ReadDir`. -/
  | readDir
  deriving DecidableEq, Repr

/-- Go `DirEntry.IsDir()`. -/
def DirNode.IsDir : DirNode → Bool
  | .file => false
  | .dir _ _ => true

/-- Go `filepath.Join(path, name)` for the paths `WalkDir` builds from the
root `"."` and entry names. -/
def Join (path name : GoString) : GoString :=
  if path = [46] then name else path ++ [47] ++ name

/-- A Go `fs.WalkDirFunc` whose captured variables have type `σ`: called with
the path, `d.IsDir()` and the error, it returns the new state and its error. -/
abbrev WalkDirFunc (σ : Type) := GoString → Bool → Option WalkError → σ → σ × Option WalkError

mutual
/-- Go `walkDir` of `path/filepath` (standard library). -/
def walkDir {σ : Type} (walkDirFn : WalkDirFunc σ) (path : GoString) :
    DirNode → σ → σ × Option WalkError
  | .file, s => walkDirFn path false none s
  | .dir entries readError, s =>
    match walkDirFn path true none s with
    | (s, some err) => (s, if err = .SkipDir then none else some err)
    | (s, none) =>
      if readError then
        -- second call, to report the ReadDir error
        match walkDirFn path true (some .readDir) s with
        | (s, some err) => (s, if err = .SkipDir then none else some err)
        | (s, none) => walkDirEntries walkDirFn path entries s
      else walkDirEntries walkDirFn path entries s
/-- The loop `for _, d1 := range dirs` of Go `walkDir`. -/
def walkDirEntries {σ : Type} (walkDirFn : WalkDirFunc σ) (path : GoString) :
    DirEntries → σ → σ × Option WalkError
  | .nil, s => (s, none)
  | .cons name node rest, s =>
    match walkDir walkDirFn (Join path name) node s with
    | (s, some err) => (s, if err = .SkipDir then none else some err)
    | (s, none) => walkDirEntries walkDirFn path rest s
end

/-- Go `filepath.WalkDir` (standard library), for a root that `os.Lstat` can
read. -/
def WalkDir {σ : Type} (root : GoString) (node : DirNode) (fn : WalkDirFunc σ) (s : σ) :
    σ × Option WalkError :=
  match walkDir fn root node s with
  | (s, some .SkipDir) => (s, none)
  | (s, some .SkipAll) => (s, none)
  | (s, err) => (s, err)

/-- The function literal passed to `filepath.WalkDir` (lines 103-111); the
state is the captured slice `filesToProcess`. -/
def walkFn : WalkDirFunc (List GoString) :=
  fun path dIsDir err filesToProcess =>
    match err with
    | some err => (filesToProcess, some err)
    | none =>
      if !dIsDir then (filesToProcess ++ [path], none)
      else (filesToProcess, none)

/-- The loop over the entries of `os.ReadDir(".")` (lines 123-127). -/
def appendNonDirs : DirEntries → List GoString → List GoString
  | .nil, filesToProcess => filesToProcess
  | .cons name node rest, filesToProcess =>
    if !node.IsDir then appendNonDirs rest (filesToProcess ++ [name])
    else appendNonDirs rest filesToProcess

/-- Step 1 of scan mode (lines 99-131): `cwd` is the working directory after
`os.Chdir`, `infoIsDir` is `info.IsDir()` of the target and `base` is
`filepath.Base(absPath)`. `none` when `main` returns at line 121. -/
def gatherFiles (recursiveFlag infoIsDir : Bool) (base : GoString) (cwd : DirNode) :
    Option (List GoString) :=
  if recursiveFlag then
    -- a walk error is printed and the run goes on with what was gathered
    some (WalkDir [46] cwd walkFn []).1
  else if !infoIsDir then
    some [base]
  else
    match cwd with
    | .file => none
    | .dir entries readError =>
      if readError then none else some (appendNonDirs entries [])

mutual
/-- Every entry below a node that a depth-first traversal reaches without
meeting an error, with its relative path and its `IsDir()`, in traversal
order; the content of a directory that cannot be listed is not reached. -/
def reachableEntries (path : GoString) : DirNode → List (GoString × Bool)
  | .file => [(path, false)]
  | .dir entries readError =>
    (path, true) :: (if readError then [] else reachableEntriesIn path entries)
/-- The same for the entries of the directory at `path`. -/
def reachableEntriesIn (path : GoString) : DirEntries → List (GoString × Bool)
  | .nil => []
  | .cons name node rest =>
    reachableEntries (Join path name) node ++ reachableEntriesIn path rest
end

/-- The paths of the non-directory entries of a list of entries. -/
def nonDirs (entries : List (GoString × Bool)) : List GoString :=
  (entries.filter (fun e => !e.2)).map (fun e => e.1)

/-- Every non-directory entry that a depth-first traversal reaches without
meeting an error, by its path relative to the root. -/
def reachableFiles (path : GoString) (node : DirNode) : List GoString :=
  nonDirs (reachableEntries path node)

/-- The immediate children of a directory, with their `IsDir()`. -/
def children : DirEntries → List (GoString × Bool)
  | .nil => []
  | .cons name node rest => (name, node.IsDir) :: children rest

mutual
/-- The visits of a depth-first traversal that goes on after an error: every
entry reached, in order, with its relative path and its `IsDir()`, and whether
listing it fails. -/
def visits (path : GoString) : DirNode → List ((GoString × Bool) × Bool)
  | .file => [((path, false), false)]
  | .dir entries readError =>
    ((path, true), readError) :: (if readError then [] else visitsIn path entries)
/-- The same for the entries of the directory at `path`. -/
def visitsIn (path : GoString) : DirEntries → List ((GoString × Bool) × Bool)
  | .nil => []
  | .cons name node rest => visits (Join path name) node ++ visitsIn path rest
end

/-- The non-directory entries visited before the first directory that cannot
be listed, and all of them when there is none. -/
def filesBeforeError (path : GoString) (node : DirNode) : List GoString :=
  nonDirs (((visits path node).takeWhile (fun v => !v.2)).map (fun v => v.1))

mutual
/-- No directory of the tree fails to list. -/
def errorFree : DirNode → Bool
  | .file => true
  | .dir entries readError => !readError && errorFreeIn entries
/-- The same for the entries of a directory. -/
def errorFreeIn : DirEntries → Bool
  | .nil => true
  | .cons _ node rest => errorFree node && errorFreeIn rest
end

/-! ## The worker pool (crc32.go, lines 139-189) -/

/-- A progress line `Processed [newCount / filesTotal]`. -/
structure Progress where
  newCount : Nat
  filesTotal : Nat
  deriving DecidableEq, Repr

/-- State of the scan between two scheduling points. -/
structure PoolState where
  /-- Paths the dispatch loop has not reached yet. -/
  pending : List GoString
  /-- Number of tokens held in the `semaphore` channel. -/
  semaphore : Nat
  /-- Paths of the goroutines started and not yet returned. -/
  running : List GoString
  /-- Content of the `results` channel, oldest first. -/
  results : List jobResult
  /-- The atomic counter `processedCount`. -/
  processedCount : Nat
  /-- Progress lines printed so far. -/
  progress : List Progress
  deriving DecidableEq, Repr

/-- State when the dispatch loop is entered. -/
def PoolState.init (filesToProcess : List GoString) : PoolState :=
  { pending := filesToProcess, semaphore := 0, running := [], results := [],
    processedCount := 0, progress := [] }

/-- The goroutine body (lines 157-182) run on `fPath`, up to and including the
send on `results`. -/
def runWorker (fs : FS) (filesTotal : Nat) (fPath : GoString) (s : PoolState) : PoolState :=
  match osStat fs fPath with
  | none => { s with results := s.results ++ [{ entry := ⟨[], 0⟩, err := some "invalid file" }] }
  | some true => { s with results := s.results ++ [{ entry := ⟨[], 0⟩, err := some "invalid file" }] }
  | some false =>
    let crc := calculateCRC32 fs fPath
    let newCount := s.processedCount + 1
    let progress :=
      if filesTotal < 100 ∨ newCount % 10 = 0 ∨ newCount = filesTotal then
        s.progress ++ [{ newCount := newCount, filesTotal := filesTotal }]
      else s.progress
    { s with
      processedCount := newCount
      progress := progress
      results := s.results ++ [{ entry := { Filename := fPath, CRC := crc }, err := none }] }

/-- A scheduling decision. -/
inductive Event where
  /-- The dispatch loop takes its next path: it sends a token on `semaphore`
  and starts the goroutine. -/
  | dispatch
  /-- The `i`-th running goroutine runs to its end: body, then the deferred
  receive on `semaphore`. -/
  | finish (i : Nat)
  deriving DecidableEq, Repr

/-- One scheduling step; `none` when the event cannot happen in this state
(the send on a full `semaphore` blocks, there is no such goroutine). -/
def step (fs : FS) (maxWorkers filesTotal : Nat) (s : PoolState) : Event → Option PoolState
  | .dispatch =>
    match s.pending with
    | [] => none
    | path :: rest =>
      if s.semaphore < maxWorkers then
        some { s with pending := rest, semaphore := s.semaphore + 1,
                      running := s.running ++ [path] }
      else none
  | .finish i =>
    match s.running[i]? with
    | none => none
    | some fPath =>
      let s := runWorker fs filesTotal fPath s
      some { s with running := s.running.eraseIdx i, semaphore := s.semaphore - 1 }

/-- Run a schedule from a state. -/
def runPool (fs : FS) (maxWorkers filesTotal : Nat) : PoolState → List Event → Option PoolState
  | s, [] => some s
  | s, e :: es =>
    match step fs maxWorkers filesTotal s e with
    | none => none
    | some s => runPool fs maxWorkers filesTotal s es

/-- The point at which `wg.Wait()` returns and `results` is closed: every path
dispatched, every goroutine returned. -/
def PoolState.drained (s : PoolState) : Bool :=
  s.pending.isEmpty && s.running.isEmpty

/-! ## Collecting and sorting (crc32.go, lines 191-209) -/

/-- The loop `for res := range results` (lines 193-197). -/
def collect : List jobResult → List FileEntry → List FileEntry
  | [], processedFiles => processedFiles
  | res :: rest, processedFiles =>
    match res.err with
    | none => collect rest (processedFiles ++ [res.entry])
    | some _ => collect rest processedFiles

/-- Inner loop of Go `insertionSort_func`: the new element moves left past
every element it is less than. The part of the slice already sorted is given
right to left. -/
def sinkLeft {α : Type} (less : α → α → Bool) (x : α) : List α → List α
  | [] => [x]
  | y :: rest => if less x y then y :: sinkLeft less x rest else x :: y :: rest

/-- Outer loop of Go `insertionSort_func`; `sorted` is the sorted part, right
to left. -/
def insertionSortLoop {α : Type} (less : α → α → Bool) : List α → List α → List α
  | sorted, [] => sorted.reverse
  | sorted, x :: xs => insertionSortLoop less (sinkLeft less x sorted) xs

/-- Go `sort.Slice` (standard library). The library sorts short slices by
insertion sort and longer ones by pattern-defeating quicksort; both return a
permutation of the input that is in order for `less`, and that is all the
properties below rest on. Insertion sort stands for both here. -/
def sortSlice {α : Type} (less : α → α → Bool) (data : List α) : List α :=
  insertionSortLoop less [] data

/-- The comparison passed to `sort.Slice` (lines 200-202). -/
def lessFilename (a b : FileEntry) : Bool := stringLess a.Filename b.Filename

/-- Lines 191-209: collect the results, sort them, build the manifest. -/
def buildManifest (results : List jobResult) : Data :=
  let processedFiles := collect results []
  let processedFiles := sortSlice lessFilename processedFiles
  { Files := processedFiles, Version := Version, ZlibVersion := ZlibVersion }

/-- Scan mode from the list of gathered paths on (lines 133-209), under a
schedule of the goroutines. `none` when the run prints no manifest: there are
no files (line 134), or the schedule is not one of a complete run. -/
def scan (fs : FS) (maxWorkers : Nat) (filesToProcess : List GoString)
    (schedule : List Event) : Option Data :=
  let filesTotal := filesToProcess.length
  if filesTotal = 0 then none
  else
    match runPool fs maxWorkers filesTotal (PoolState.init filesToProcess) schedule with
    | none => none
    | some s => if s.drained then some (buildManifest s.results) else none

/-- Scan mode as a whole (lines 97-209): gather the paths, then scan them. -/
def scanMode (fs : FS) (maxWorkers : Nat) (recursiveFlag infoIsDir : Bool) (base : GoString)
    (cwd : DirNode) (schedule : List Event) : Option Data :=
  match gatherFiles recursiveFlag infoIsDir base cwd with
  | none => none
  | some filesToProcess => scan fs maxWorkers filesToProcess schedule

/-! ## Verification (crc32.go, lines 257-283) -/

/-- What opening and parsing the manifest file gives. -/
inductive ManifestFile where
  /-- The call `os.Open(jsonPath)` fails. -/
  | unreadable
  /-- The call `json.Unmarshal` fails. -/
  | malformed
  /-- The file parses to `data`. -/
  | parsed (data : Data)
  deriving DecidableEq, Repr

/-- A line `status : recorded == current : filename`. -/
structure StatusLine where
  status : String
  recorded : Nat
  current : Nat
  filename : GoString
  deriving DecidableEq, Repr

/-- A line printed by `verifyCRC`. -/
inductive Output where
  | errorOpening
  | errorParsing
  | statusLine (line : StatusLine)
  deriving DecidableEq, Repr

/-- The loop of `verifyCRC` (lines 275-282); `out` is what was printed before. -/
def verifyLoop (fs : FS) : List FileEntry → List Output → List Output
  | [], out => out
  | fileEntry :: rest, out =>
    let currentCRC := calculateCRC32 fs fileEntry.Filename
    let status := if currentCRC = fileEntry.CRC then "OK" else "XX"
    verifyLoop fs rest
      (out ++ [.statusLine { status := status, recorded := fileEntry.CRC,
                             current := currentCRC, filename := fileEntry.Filename }])

/-- Go `verifyCRC`: the lines it prints. -/
def verifyCRC (fs : FS) (jsonFile : ManifestFile) : List Output :=
  match jsonFile with
  | .unreadable => [.errorOpening]
  | .malformed => [.errorParsing]
  | .parsed data => verifyLoop fs data.Files []

/-! ## Writing and reading the manifest: `encoding/json` (Go standard library) -/

/-- Tables `first` and `acceptRanges` of Go `unicode/utf8`: for a leading byte
of an encoding of several bytes, the length of the encoding and the lowest and
highest value allowed for its second byte; `none` for any other byte. -/
def utf8First (b : Byte) : Option (Nat × Nat × Nat) :=
  if 0xC2 ≤ b.val ∧ b.val ≤ 0xDF then some (2, 0x80, 0xBF)
  else if b.val = 0xE0 then some (3, 0xA0, 0xBF)
  else if (0xE1 ≤ b.val ∧ b.val ≤ 0xEC) ∨ b.val = 0xEE ∨ b.val = 0xEF then some (3, 0x80, 0xBF)
  else if b.val = 0xED then some (3, 0x80, 0x9F)
  else if b.val = 0xF0 then some (4, 0x90, 0xBF)
  else if 0xF1 ≤ b.val ∧ b.val ≤ 0xF3 then some (4, 0x80, 0xBF)
  else if b.val = 0xF4 then some (4, 0x80, 0x8F)
  else none

/-- A continuation byte: between `locb` and `hicb` of Go `unicode/utf8`. -/
def isContinuation (b : Byte) : Bool := 0x80 ≤ b.val && b.val ≤ 0xBF

/-- Go `utf8.DecodeRuneInString`, as far as `encoding/json` looks at its
result: the length of the encoding at the head of `s`, or `none` when the
result is `(RuneError, 1)`, no encoding starting there. -/
def decodeRuneSize : GoString → Option Nat
  | [] => none
  | s0 :: rest =>
    if s0.val < 0x80 then some 1
    else
      match utf8First s0 with
      | none => none
      | some (sz, lo, hi) =>
        match rest with
        | [] => none
        | s1 :: rest =>
          if s1.val < lo ∨ hi < s1.val then none
          else if sz ≤ 2 then some 2
          else
            match rest with
            | [] => none
            | s2 :: rest =>
              if !isContinuation s2 then none
              else if sz ≤ 3 then some 3
              else
                match rest with
                | [] => none
                | s3 :: _ => if !isContinuation s3 then none else some 4

/-- The loop of Go `utf8.ValidString`; `skip` is the number of bytes of the
current encoding still to pass. -/
def validStringLoop : Nat → GoString → Bool
  | _, [] => true
  | skip + 1, _ :: rest => validStringLoop skip rest
  | 0, b :: rest =>
    match decodeRuneSize (b :: rest) with
    | none => false
    | some size => validStringLoop (size - 1) rest

/-- Go `utf8.ValidString`: the string is valid UTF-8. -/
def ValidString (s : GoString) : Bool := validStringLoop 0 s

/-- The loop of the string encoder of `encoding/json`, seen through the string
a JSON parser reads back: the bytes of an encoding are kept, a byte that starts
none is written as the escape of U+FFFD, read back as `EF BF BD`. `skip` is the number of
bytes of the current encoding still to copy. The escapes the encoder writes for
some characters read back as these characters and are not shown. -/
def jsonStringLoop : Nat → GoString → GoString
  | _, [] => []
  | skip + 1, b :: rest => b :: jsonStringLoop skip rest
  | 0, b :: rest =>
    match decodeRuneSize (b :: rest) with
    | none => [0xEF, 0xBF, 0xBD] ++ jsonStringLoop 0 rest
    | some size => b :: jsonStringLoop (size - 1) rest

/-- A Go string after it went through a JSON string: `encoding/json` coerces
it to valid UTF-8, when it writes it and when it reads it. -/
def jsonString (s : GoString) : GoString := jsonStringLoop 0 s

/-- The bytes of a JSON file, by what they denote: the object of a manifest,
with the strings and numbers of its members, or anything else. -/
inductive JSONText where
  | manifest (files : List FileEntry) (version zlibVersion : String)
  | other
  deriving DecidableEq, Repr

/-- Go `json.Marshal(outputData)` and `json.MarshalIndent` (lines 211-216),
which differ by white space only. -/
def jsonMarshal (outputData : Data) : JSONText :=
  .manifest (outputData.Files.map (fun e => { e with Filename := jsonString e.Filename }))
    outputData.Version outputData.ZlibVersion

/-- Go `json.Unmarshal(byteValue, &data)` (lines 267-268): `none` when it
returns an error, as it does for a `crc` that does not fit a `uint32`. -/
def jsonUnmarshal : JSONText → Option Data
  | .other => none
  | .manifest files version zlibVersion =>
    if files.all (fun e => decide (e.CRC < 2 ^ 32)) then
      some { Files := files.map (fun e => { e with Filename := jsonString e.Filename }),
             Version := version, ZlibVersion := zlibVersion }
    else none

/-- Lines 258-271 of `verifyCRC`: open the file at `jsonPath`, read it, parse
it; `file` is `none` when there is no file to open. -/
def readManifest (file : Option JSONText) : ManifestFile :=
  match file with
  | none => .unreadable
  | some byteValue =>
    match jsonUnmarshal byteValue with
    | none => .malformed
    | some data => .parsed data

/-- Read mode run on the file that scan mode wrote for `outputData` (lines
220-236, then lines 91-94 and 257-283). -/
def verifyWritten (fs : FS) (outputData : Data) : List Output :=
  verifyCRC fs (readManifest (some (jsonMarshal outputData)))

/-! ## Notions used to state the properties -/

/-- The precondition check of a job (line 163) fails: `os.Stat` returns an
error or the path is a directory. -/
def preconditionFails (fs : FS) (fPath : GoString) : Bool :=
  match osStat fs fPath with
  | some false => false
  | _ => true

/-- The read step of a job fails: inside `calculateCRC32`, `os.Open` or
`io.Copy` returns an error. -/
def readFails (fs : FS) (fPath : GoString) : Bool :=
  match osOpen fs fPath with
  | none => true
  | some file => file.readError

/-- The entry a job on `fPath` produces when its precondition check passes. -/
def entryOf (fs : FS) (fPath : GoString) : FileEntry :=
  { Filename := fPath, CRC := calculateCRC32 fs fPath }

/-- What the job on `fPath` sends on `results`. -/
def workerResult (fs : FS) (fPath : GoString) : jobResult :=
  if preconditionFails fs fPath then { entry := ⟨[], 0⟩, err := some "invalid file" }
  else { entry := entryOf fs fPath, err := none }

/-- The entry carried by a result without error. -/
def jobResult.kept (res : jobResult) : Option FileEntry :=
  match res.err with
  | none => some res.entry
  | some _ => none

/-- What holds of every state of a scan of `filesToProcess`: the tokens in
`semaphore` are those of the running goroutines, there are at most
`maxWorkers` of them, every job is accounted for exactly once (its result
sent, or running, or pending), and `processedCount` counts the results sent
without error. -/
structure PoolInv (fs : FS) (maxWorkers : Nat) (filesToProcess : List GoString)
    (s : PoolState) : Prop where
  tokens : s.semaphore = s.running.length
  bound : s.running.length ≤ maxWorkers
  jobs : (s.results ++ (s.running ++ s.pending).map (workerResult fs)).Perm
    (filesToProcess.map (workerResult fs))
  count : s.processedCount = (s.results.filterMap jobResult.kept).length

/-- The schedule that runs the jobs one after the other. -/
def sequentialSchedule : Nat → List Event
  | 0 => []
  | n + 1 => .dispatch :: .finish 0 :: sequentialSchedule n

/-- The file system `fs` with the state of `path` replaced. -/
def FS.write (fs : FS) (path : GoString) (state : FileState) : FS :=
  fun p => if p = path then state else fs p

/-- The status line `verifyCRC` prints for one entry. -/
def checkEntry (fs : FS) (fileEntry : FileEntry) : StatusLine :=
  { status := if calculateCRC32 fs fileEntry.Filename = fileEntry.CRC then "OK" else "XX"
    recorded := fileEntry.CRC
    current := calculateCRC32 fs fileEntry.Filename
    filename := fileEntry.Filename }

/-! ## Example inputs -/

/-- A working directory with `a` (the nine bytes `123456789`, returned by two
reads), `b` (empty), `c` (cannot be opened), `d` (a directory) and no other
path. -/
def exampleFS : FS := fun p =>
  if p = [97] then .regular [[49, 50, 51], [52, 53, 54, 55, 56, 57]] false
  else if p = [98] then .regular [] false
  else if p = [99] then .noAccess
  else if p = [100] then .directory
  else .missing

/-- A schedule for five jobs on two workers in which jobs overtake each other. -/
def exampleSchedule : List Event :=
  [.dispatch, .dispatch, .finish 1, .dispatch, .finish 0, .finish 0, .dispatch, .dispatch,
   .finish 1, .finish 0]

/-- The manifest of scanning `a`, `b`, `c` in `exampleFS`. -/
def exampleManifest : Data :=
  { Files := [⟨[97], 0xCBF43926⟩, ⟨[98], 0⟩, ⟨[99], 0⟩],
    Version := "1.0.0", ZlibVersion := "1.2.11" }

/-- A tree in which the directory `a` cannot be listed and `b` is a file. -/
def exampleTree : DirNode :=
  .dir (.cons [97] (.dir (.cons [120] .file .nil) true) (.cons [98] .file .nil)) false

/-- A tree without error: `z`, `a/x`, the empty directory `a/y`, and `b`. -/
def exampleTreeOk : DirNode :=
  .dir (.cons [122] .file
    (.cons [97] (.dir (.cons [120] .file (.cons [121] (.dir .nil false) .nil)) false)
      (.cons [98] .file .nil))) false

/-- A listing of the working directory that returns the name `b` twice. -/
def exampleTreeTwice : DirNode :=
  .dir (.cons [98] .file (.cons [98] .file .nil)) false

/-- A working directory with a file of the one-byte name `FF`, not valid
UTF-8, that holds `123456789`, the empty file `b`, and no other path. -/
def exampleFSName : FS := fun p =>
  if p = [0xFF] then .regular [[49, 50, 51, 52, 53, 54, 55, 56, 57]] false
  else if p = [98] then .regular [] false
  else .missing

/-- A tree with the files `a/x` and `c`, between them the directory `b` that
cannot be listed. -/
def exampleTreeMiddle : DirNode :=
  .dir (.cons [97] (.dir (.cons [120] .file .nil) false)
    (.cons [98] (.dir .nil true) (.cons [99] .file .nil))) false

/-! # Properties -/

set_option maxRecDepth 20000

/-! ## `hash/crc32` against the reference -/

theorem shiftRight_xor (a b k : Nat) : (a ^^^ b) >>> k = (a >>> k) ^^^ (b >>> k) := by
  apply Nat.eq_of_testBit_eq
  intro i
  simp [Nat.testBit_shiftRight, Nat.testBit_xor]

theorem populateStep_IEEE (crc : Nat) : populateStep IEEE crc = referenceBit crc := by
  unfold populateStep referenceBit IEEE
  rw [Nat.and_one_is_mod]
  split <;> simp

theorem populateLoop_IEEE (j crc : Nat) : populateLoop IEEE j crc = referenceBit^[j] crc := by
  induction j generalizing crc with
  | zero => rfl
  | succ j ih => simp [populateLoop, ih, populateStep_IEEE]

theorem xor_xor_xor_comm (x y p q : Nat) :
    (x ^^^ y) ^^^ (p ^^^ q) = (x ^^^ p) ^^^ (y ^^^ q) := by
  apply Nat.eq_of_testBit_eq
  intro i
  simp only [Nat.testBit_xor]
  cases x.testBit i <;> cases y.testBit i <;> cases p.testBit i <;> cases q.testBit i <;> rfl

theorem referenceBit_xor (a b : Nat) :
    referenceBit (a ^^^ b) = referenceBit a ^^^ referenceBit b := by
  unfold referenceBit
  rw [shiftRight_xor, Nat.xor_mod_two_eq, ← xor_xor_xor_comm]
  congr 1
  have ha : a % 2 = 0 ∨ a % 2 = 1 := by omega
  have hb : b % 2 = 0 ∨ b % 2 = 1 := by omega
  have hab : (a + b) % 2 = (a % 2 + b % 2) % 2 := by omega
  rw [hab]
  rcases ha with ha | ha <;> rcases hb with hb | hb <;> simp [ha, hb]

theorem referenceBit_iterate_xor (k a b : Nat) :
    referenceBit^[k] (a ^^^ b) = referenceBit^[k] a ^^^ referenceBit^[k] b := by
  induction k generalizing a b with
  | zero => rfl
  | succ k ih => simp [Function.iterate_succ, referenceBit_xor, ih]

theorem referenceBit_iterate_shift (k x : Nat) (h : x % 2 ^ k = 0) :
    referenceBit^[k] x = x >>> k := by
  induction k generalizing x with
  | zero => simp
  | succ k ih =>
    have h2 : x % 2 = 0 := by
      have : 2 ∣ x := Dvd.dvd.trans (Dvd.intro_left (2 ^ k) rfl) (Nat.dvd_of_mod_eq_zero h)
      omega
    have hstep : referenceBit x = x / 2 := by
      unfold referenceBit
      simp [h2, Nat.shiftRight_eq_div_pow]
    have hk : (x / 2) % 2 ^ k = 0 := by
      rw [pow_succ] at h
      obtain ⟨c, hc⟩ := Nat.dvd_of_mod_eq_zero h
      rw [hc]
      have : 2 ^ k * 2 * c / 2 = 2 ^ k * c := by
        rw [show 2 ^ k * 2 * c = 2 * (2 ^ k * c) by ring]
        exact Nat.mul_div_cancel_left _ (by norm_num)
      rw [this]
      exact Nat.mul_mod_right _ _
    rw [Function.iterate_succ, Function.comp_apply, hstep, ih _ hk]
    simp [Nat.shiftRight_eq_div_pow, pow_succ, Nat.div_div_eq_div_mul, Nat.mul_comm]

theorem split_low_byte (c : Nat) : c = (c % 256) ^^^ ((c >>> 8) <<< 8) := by
  apply Nat.eq_of_testBit_eq
  intro i
  rw [Nat.testBit_xor, show (256 : Nat) = 2 ^ 8 by norm_num, Nat.testBit_mod_two_pow,
    Nat.testBit_shiftLeft, Nat.testBit_shiftRight]
  by_cases h : i < 8
  · have h8 : ¬ 8 ≤ i := by omega
    simp [h, h8]
  · have : 8 + (i - 8) = i := by omega
    have h8 : 8 ≤ i := by omega
    simp [h, this, h8]

theorem table_lookup (i : Nat) (h : i < 256) :
    (simpleMakeTable IEEE).getD i 0 = referenceBit^[8] i := by
  simp [simpleMakeTable, List.getD_eq_getElem?_getD, List.getElem?_map, List.getElem?_range, h,
    populateLoop_IEEE]

theorem updateStep_eq_referenceByte (crc : Nat) (v : Byte) :
    updateStep (simpleMakeTable IEEE) crc v = referenceByte crc v := by
  unfold updateStep referenceByte
  have hlt : (crc % 256) ^^^ v.val < 256 := by
    have h1 : crc % 256 < 2 ^ 8 := Nat.mod_lt _ (by norm_num)
    have h2 : v.val < 2 ^ 8 := v.isLt
    simpa using Nat.xor_lt_two_pow h1 h2
  rw [table_lookup _ hlt]
  have hhi : referenceBit^[8] ((crc >>> 8) <<< 8) = crc >>> 8 := by
    rw [referenceBit_iterate_shift]
    · simp [Nat.shiftLeft_eq, Nat.shiftRight_eq_div_pow]
    · simp [Nat.shiftLeft_eq]
  conv_rhs => rw [split_low_byte crc]
  rw [show (crc % 256 ^^^ (crc >>> 8) <<< 8) ^^^ v.val
        = (crc % 256 ^^^ v.val) ^^^ ((crc >>> 8) <<< 8) by
      rw [Nat.xor_assoc, Nat.xor_comm ((crc >>> 8) <<< 8), ← Nat.xor_assoc]]
  rw [referenceBit_iterate_xor 8 (crc % 256 ^^^ v.val) ((crc >>> 8) <<< 8), hhi]

theorem foldl_updateStep (p : List Byte) (c : Nat) :
    p.foldl (updateStep (simpleMakeTable IEEE)) c = p.foldl referenceByte c := by
  induction p generalizing c with
  | nil => rfl
  | cons v p ih => simp [List.foldl_cons, updateStep_eq_referenceByte, ih]

theorem not32_not32 (x : Nat) : not32 (not32 x) = x := by
  unfold not32
  rw [Nat.xor_assoc, Nat.xor_self, Nat.xor_zero]

theorem simpleUpdate_append (c : Nat) (tab : List Nat) (p q : List Byte) :
    simpleUpdate (simpleUpdate c tab p) tab q = simpleUpdate c tab (p ++ q) := by
  simp [simpleUpdate, not32_not32, List.foldl_append]

theorem simpleUpdate_zero (p : List Byte) :
    simpleUpdate 0 (simpleMakeTable IEEE) p = crc32Reference p := by
  simp [simpleUpdate, crc32Reference, foldl_updateStep, not32]


theorem foldl_Write (reads : List (List Byte)) (d : digest) :
    reads.foldl digest.Write d = { d with crc := simpleUpdate d.crc d.tab reads.flatten } := by
  induction reads generalizing d with
  | nil => simp [simpleUpdate, not32_not32]
  | cons p reads ih =>
    rw [List.foldl_cons, ih]
    simp [digest.Write, simpleUpdate_append]

theorem calculateCRC32_regular (fs : FS) (filename : GoString) (reads : List (List Byte))
    (h : fs filename = .regular reads false) :
    calculateCRC32 fs filename = crc32Reference reads.flatten := by
  simp [calculateCRC32, osOpen, h, ioCopy, foldl_Write, digest.New, digest.Sum32,
    simpleUpdate_zero]

theorem calculateCRC32_of_fullContent (fs : FS) (filename : GoString) (b : List Byte)
    (h : fullContent fs filename = some b) :
    calculateCRC32 fs filename = crc32Reference b := by
  unfold fullContent at h
  split at h
  · rename_i reads hfs
    simp only [Option.some.injEq] at h
    rw [← h]
    exact calculateCRC32_regular fs filename reads hfs
  · simp at h

/-! ### The values stay in the range of `uint32` -/

theorem not32_eq_sub (x : Nat) (h : x < 2 ^ 32) : not32 x = 2 ^ 32 - 1 - x := by
  have hsub : 2 ^ 32 - 1 - x = 2 ^ 32 - (x + 1) := by omega
  rw [hsub]
  apply Nat.eq_of_testBit_eq
  intro i
  rw [Nat.testBit_two_pow_sub_succ h, not32, Nat.testBit_xor,
    show (0xffffffff : Nat) = 2 ^ 32 - 1 by norm_num, Nat.testBit_two_pow_sub_one]
  by_cases hi : i < 32
  · simp [hi]
  · have hx : x.testBit i = false :=
      Nat.testBit_lt_two_pow (lt_of_lt_of_le h (Nat.pow_le_pow_right (by norm_num) (by omega)))
    simp [hi, hx]

theorem referenceBit_lt (r : Nat) (h : r < 2 ^ 32) : referenceBit r < 2 ^ 32 := by
  unfold referenceBit
  refine Nat.xor_lt_two_pow ?_ ?_
  · rw [Nat.shiftRight_eq_div_pow]
    exact lt_of_le_of_lt (Nat.div_le_self _ _) h
  · split <;> norm_num

theorem referenceBit_iterate_lt (k r : Nat) (h : r < 2 ^ 32) : referenceBit^[k] r < 2 ^ 32 := by
  induction k generalizing r with
  | zero => exact h
  | succ k ih => exact ih _ (referenceBit_lt r h)

theorem referenceByte_lt (r : Nat) (b : Byte) (h : r < 2 ^ 32) : referenceByte r b < 2 ^ 32 := by
  unfold referenceByte
  refine referenceBit_iterate_lt 8 _ (Nat.xor_lt_two_pow h ?_)
  exact lt_of_lt_of_le b.isLt (by norm_num)

theorem foldl_referenceByte_lt (b : List Byte) (r : Nat) (h : r < 2 ^ 32) :
    b.foldl referenceByte r < 2 ^ 32 := by
  induction b generalizing r with
  | nil => exact h
  | cons v b ih => exact ih _ (referenceByte_lt r v h)

theorem crc32Reference_lt (b : List Byte) : crc32Reference b < 2 ^ 32 := by
  unfold crc32Reference
  exact Nat.xor_lt_two_pow (foldl_referenceByte_lt b _ (by norm_num)) (by norm_num)

theorem simpleUpdate_lt (crc : Nat) (p : List Byte) (h : crc < 2 ^ 32) :
    simpleUpdate crc (simpleMakeTable IEEE) p < 2 ^ 32 := by
  unfold simpleUpdate
  rw [foldl_updateStep]
  have h1 : not32 crc < 2 ^ 32 := Nat.xor_lt_two_pow h (by norm_num)
  exact Nat.xor_lt_two_pow (foldl_referenceByte_lt p _ h1) (by norm_num)

/-- The checksum fits a `uint32`. -/
theorem calculateCRC32_lt (fs : FS) (filename : GoString) :
    calculateCRC32 fs filename < 2 ^ 32 := by
  unfold calculateCRC32
  cases osOpen fs filename with
  | none => norm_num
  | some file =>
    simp only [ioCopy]
    cases file.readError with
    | true => norm_num
    | false =>
      simp only [foldl_Write, digest.New, digest.Sum32, Bool.false_eq_true, if_false]
      exact simpleUpdate_lt 0 _ (by norm_num)

/-! ### Byte-wise string order -/

theorem stringLess_irrefl (a : GoString) : stringLess a a = false := by
  induction a with
  | nil => rfl
  | cons x a ih => simp [stringLess, ih]

theorem stringLess_asymm (a b : GoString) (h : stringLess a b = true) :
    stringLess b a = false := by
  induction a generalizing b with
  | nil => cases b <;> simp_all [stringLess]
  | cons x a ih =>
    cases b with
    | nil => simp [stringLess] at h
    | cons y b =>
      simp only [stringLess] at h ⊢
      by_cases hxy : x.val < y.val
      · have : ¬ y.val < x.val := by omega
        simp [this, hxy]
      · by_cases hyx : y.val < x.val
        · simp [hxy, hyx] at h
        · simp only [hxy, hyx, if_false] at h ⊢
          exact ih b h

theorem stringLess_connected (a b : GoString) (hab : stringLess a b = false)
    (hba : stringLess b a = false) : a = b := by
  induction a generalizing b with
  | nil => cases b <;> simp_all [stringLess]
  | cons x a ih =>
    cases b with
    | nil => simp [stringLess] at hba
    | cons y b =>
      simp only [stringLess] at hab hba
      by_cases hxy : x.val < y.val
      · simp [hxy] at hab
      · by_cases hyx : y.val < x.val
        · simp [hyx] at hba
        · simp only [hxy, hyx, if_false] at hab hba
          have hv : x = y := Fin.ext (by omega)
          rw [hv, ih b hab hba]

theorem stringLess_negTrans (a b c : GoString) (hab : stringLess a b = false)
    (hbc : stringLess b c = false) : stringLess a c = false := by
  induction a generalizing b c with
  | nil =>
    cases b with
    | nil => exact hbc
    | cons y b => simp [stringLess] at hab
  | cons x a ih =>
    cases b with
    | nil => cases c <;> simp_all [stringLess]
    | cons y b =>
      cases c with
      | nil => simp [stringLess]
      | cons z c =>
        simp only [stringLess] at hab hbc ⊢
        by_cases hxy : x.val < y.val
        · simp [hxy] at hab
        · by_cases hyz : y.val < z.val
          · simp [hyz] at hbc
          · by_cases hyx : y.val < x.val
            · have h1 : ¬ x.val < z.val := by omega
              have h2 : z.val < x.val := by omega
              simp [h1, h2]
            · by_cases hzy : z.val < y.val
              · have h1 : ¬ x.val < z.val := by omega
                have h2 : z.val < x.val := by omega
                simp [h1, h2]
              · have h1 : ¬ x.val < z.val := by omega
                have h2 : ¬ z.val < x.val := by omega
                simp only [hxy, hyx, hyz, hzy, if_false] at hab hbc
                simp only [h1, h2, if_false]
                exact ih b c hab hbc

/-! ### `sort.Slice` -/

theorem sinkLeft_perm {α : Type} (less : α → α → Bool) (x : α) (l : List α) :
    (sinkLeft less x l).Perm (x :: l) := by
  induction l with
  | nil => exact List.Perm.refl _
  | cons y l ih =>
    unfold sinkLeft
    split
    · exact ((List.Perm.cons y ih).trans (List.Perm.swap x y l))
    · exact List.Perm.refl _

theorem insertionSortLoop_perm {α : Type} (less : α → α → Bool) (sorted data : List α) :
    (insertionSortLoop less sorted data).Perm (sorted ++ data) := by
  induction data generalizing sorted with
  | nil => simp [insertionSortLoop]
  | cons x data ih =>
    unfold insertionSortLoop
    refine (ih _).trans ?_
    refine (List.Perm.append_right data (sinkLeft_perm less x sorted)).trans ?_
    simpa using (@List.perm_middle _ x sorted data).symm

theorem sortSlice_perm {α : Type} (less : α → α → Bool) (data : List α) :
    (sortSlice less data).Perm data := by
  simpa [sortSlice] using insertionSortLoop_perm less [] data

theorem sinkLeft_pairwise {α : Type} (less : α → α → Bool)
    (hasymm : ∀ a b, less a b = true → less b a = false)
    (hneg : ∀ a b c, less a b = false → less b c = false → less a c = false)
    (x : α) (l : List α) (hl : l.Pairwise (fun a b => less a b = false)) :
    (sinkLeft less x l).Pairwise (fun a b => less a b = false) := by
  induction l with
  | nil => simp [sinkLeft]
  | cons y l ih =>
    rw [List.pairwise_cons] at hl
    unfold sinkLeft
    by_cases hxy : less x y = true
    · rw [if_pos hxy, List.pairwise_cons]
      refine ⟨?_, ih hl.2⟩
      intro z hz
      rcases List.mem_cons.mp ((sinkLeft_perm less x l).mem_iff.mp hz) with rfl | hz
      · exact hasymm _ _ hxy
      · exact hl.1 z hz
    · have hxy0 : less x y = false := by simpa using hxy
      rw [if_neg hxy, List.pairwise_cons]
      refine ⟨?_, List.pairwise_cons.mpr hl⟩
      intro z hz
      rcases List.mem_cons.mp hz with rfl | hz
      · exact hxy0
      · exact hneg x y z hxy0 (hl.1 z hz)

theorem insertionSortLoop_pairwise {α : Type} (less : α → α → Bool)
    (hasymm : ∀ a b, less a b = true → less b a = false)
    (hneg : ∀ a b c, less a b = false → less b c = false → less a c = false)
    (sorted data : List α) (hs : sorted.Pairwise (fun a b => less a b = false)) :
    (insertionSortLoop less sorted data).Pairwise (fun a b => less b a = false) := by
  induction data generalizing sorted with
  | nil => simpa [insertionSortLoop, List.pairwise_reverse] using hs
  | cons x data ih =>
    unfold insertionSortLoop
    exact ih _ (sinkLeft_pairwise less hasymm hneg x sorted hs)

theorem sortSlice_pairwise {α : Type} (less : α → α → Bool)
    (hasymm : ∀ a b, less a b = true → less b a = false)
    (hneg : ∀ a b c, less a b = false → less b c = false → less a c = false)
    (data : List α) :
    (sortSlice less data).Pairwise (fun a b => less b a = false) :=
  insertionSortLoop_pairwise less hasymm hneg [] data List.Pairwise.nil

theorem lessFilename_asymm (a b : FileEntry) (h : lessFilename a b = true) :
    lessFilename b a = false := stringLess_asymm _ _ h

theorem lessFilename_negTrans (a b c : FileEntry) (hab : lessFilename a b = false)
    (hbc : lessFilename b c = false) : lessFilename a c = false :=
  stringLess_negTrans _ _ _ hab hbc


/-! ### The worker pool -/

theorem getElem?_perm_eraseIdx {α : Type} (l : List α) (i : Nat) (x : α)
    (h : l[i]? = some x) : l.Perm (x :: l.eraseIdx i) := by
  induction l generalizing i with
  | nil => simp at h
  | cons y l ih =>
    cases i with
    | zero =>
      simp at h
      subst h
      simp
    | succ i =>
      simp at h
      simp only [List.eraseIdx_cons_succ]
      exact (List.Perm.cons y (ih i h)).trans (List.Perm.swap x y _)

theorem getElem?_length_eraseIdx {α : Type} (l : List α) (i : Nat) (x : α)
    (h : l[i]? = some x) : (l.eraseIdx i).length + 1 = l.length := by
  have := (getElem?_perm_eraseIdx l i x h).length_eq
  simp at this
  omega

theorem runWorker_results (fs : FS) (filesTotal : Nat) (fPath : GoString) (s : PoolState) :
    (runWorker fs filesTotal fPath s).results = s.results ++ [workerResult fs fPath] := by
  unfold runWorker workerResult preconditionFails entryOf
  rcases h : osStat fs fPath with _ | _ | _ <;> simp

theorem runWorker_frame (fs : FS) (filesTotal : Nat) (fPath : GoString) (s : PoolState) :
    (runWorker fs filesTotal fPath s).pending = s.pending ∧
    (runWorker fs filesTotal fPath s).running = s.running ∧
    (runWorker fs filesTotal fPath s).semaphore = s.semaphore := by
  unfold runWorker
  rcases h : osStat fs fPath with _ | _ | _ <;> simp

theorem runWorker_processedCount (fs : FS) (filesTotal : Nat) (fPath : GoString)
    (s : PoolState) :
    (runWorker fs filesTotal fPath s).processedCount =
      s.processedCount + (if preconditionFails fs fPath then 0 else 1) := by
  unfold runWorker preconditionFails
  rcases h : osStat fs fPath with _ | _ | _ <;> simp

theorem kept_workerResult (fs : FS) (fPath : GoString) :
    (workerResult fs fPath).kept =
      if preconditionFails fs fPath then none else some (entryOf fs fPath) := by
  by_cases hp : preconditionFails fs fPath = true <;> simp [workerResult, jobResult.kept, hp]

theorem PoolInv_init (fs : FS) (maxWorkers : Nat) (filesToProcess : List GoString) :
    PoolInv fs maxWorkers filesToProcess (PoolState.init filesToProcess) := by
  constructor <;> simp [PoolState.init]

theorem PoolInv_step (fs : FS) (maxWorkers filesTotal : Nat) (filesToProcess : List GoString)
    (s t : PoolState) (e : Event) (hs : PoolInv fs maxWorkers filesToProcess s)
    (h : step fs maxWorkers filesTotal s e = some t) :
    PoolInv fs maxWorkers filesToProcess t := by
  obtain ⟨htok, hbound, hjobs, hcount⟩ := hs
  cases e with
  | dispatch =>
    unfold step at h
    simp only at h
    split at h
    · simp at h
    · rename_i path rest hp
      split at h
      · rename_i hlt
        simp only [Option.some.injEq] at h
        subst h
        refine ⟨by simp [htok], by simp; omega, ?_, by simpa using hcount⟩
        simpa [hp] using hjobs
      · simp at h
  | finish i =>
    unfold step at h
    simp only at h
    split at h
    · simp at h
    · rename_i fPath hi
      simp only [Option.some.injEq] at h
      obtain ⟨hpend, hrun, hsem⟩ := runWorker_frame fs filesTotal fPath s
      have hlen := getElem?_length_eraseIdx s.running i fPath hi
      subst h
      refine ⟨?_, ?_, ?_, ?_⟩
      · simp only [hrun, hsem, htok]; omega
      · simp only [hrun]; omega
      · simp only [hrun, hpend, runWorker_results]
        refine List.Perm.trans ?_ hjobs
        rw [List.append_assoc]
        refine List.Perm.append_left _ ?_
        rw [List.map_append, List.map_append, ← List.append_assoc]
        refine List.Perm.append_right _ ?_
        simpa using ((getElem?_perm_eraseIdx s.running i fPath hi).map (workerResult fs)).symm
      · simp only [runWorker_results, runWorker_processedCount, List.filterMap_append,
          List.length_append, hcount]
        simp only [List.filterMap_cons, List.filterMap_nil, kept_workerResult]
        split <;> simp

theorem PoolInv_runPool (fs : FS) (maxWorkers filesTotal : Nat) (filesToProcess : List GoString)
    (schedule : List Event) (s t : PoolState) (hs : PoolInv fs maxWorkers filesToProcess s)
    (h : runPool fs maxWorkers filesTotal s schedule = some t) :
    PoolInv fs maxWorkers filesToProcess t := by
  induction schedule generalizing s with
  | nil =>
    simp only [runPool, Option.some.injEq] at h
    exact h ▸ hs
  | cons e es ih =>
    unfold runPool at h
    split at h
    · simp at h
    · rename_i s1 hstep
      exact ih s1 (PoolInv_step fs maxWorkers filesTotal filesToProcess s s1 e hs hstep) h

theorem collect_eq_filterMap (results : List jobResult) (processedFiles : List FileEntry) :
    collect results processedFiles = processedFiles ++ results.filterMap jobResult.kept := by
  induction results generalizing processedFiles with
  | nil => simp [collect]
  | cons res rest ih =>
    unfold collect
    cases h : res.err with
    | none => simp [ih, List.filterMap_cons, jobResult.kept, h]
    | some e => simp [ih, List.filterMap_cons, jobResult.kept, h]

theorem filterMap_kept_workerResult (fs : FS) (paths : List GoString) :
    (paths.map (workerResult fs)).filterMap jobResult.kept =
      (paths.filter (fun p => !preconditionFails fs p)).map (entryOf fs) := by
  induction paths with
  | nil => rfl
  | cons p paths ih =>
    simp only [List.map_cons, List.filterMap_cons, kept_workerResult, List.filter_cons]
    by_cases hp : preconditionFails fs p = true
    · simp [hp, ih]
    · simp [hp, ih]

/-- The state reached by a complete run, and what its results are. -/
theorem scan_some (fs : FS) (maxWorkers : Nat) (filesToProcess : List GoString)
    (schedule : List Event) (d : Data) (h : scan fs maxWorkers filesToProcess schedule = some d) :
    ∃ s, runPool fs maxWorkers filesToProcess.length (PoolState.init filesToProcess) schedule
          = some s ∧ s.pending = [] ∧ s.running = [] ∧ d = buildManifest s.results ∧
        PoolInv fs maxWorkers filesToProcess s ∧ filesToProcess ≠ [] := by
  unfold scan at h
  simp only at h
  split at h
  · simp at h
  · rename_i hne
    split at h
    · simp at h
    · rename_i s hrun
      split at h
      · rename_i hd
        simp only [Option.some.injEq] at h
        simp only [PoolState.drained, Bool.and_eq_true, List.isEmpty_iff] at hd
        refine ⟨s, hrun, hd.1, hd.2, h.symm, ?_, ?_⟩
        · exact PoolInv_runPool fs maxWorkers _ filesToProcess schedule _ s
            (PoolInv_init fs maxWorkers filesToProcess) hrun
        · intro hnil
          exact hne (by simp [hnil])
      · simp at h

theorem scan_files (fs : FS) (maxWorkers : Nat) (filesToProcess : List GoString)
    (schedule : List Event) (d : Data) (h : scan fs maxWorkers filesToProcess schedule = some d) :
    d.Files.Perm ((filesToProcess.filter (fun p => !preconditionFails fs p)).map (entryOf fs)) ∧
    d.Files.Pairwise (fun a b => lessFilename b a = false) ∧
    d.Version = Version ∧ d.ZlibVersion = ZlibVersion := by
  obtain ⟨s, -, hpend, hrun, hd, hinv, -⟩ := scan_some fs maxWorkers filesToProcess schedule d h
  subst hd
  have hjobs := hinv.jobs
  simp only [hpend, hrun, List.append_nil, List.map_nil] at hjobs
  refine ⟨?_, ?_, rfl, rfl⟩
  · simp only [buildManifest, collect_eq_filterMap, List.nil_append]
    refine (sortSlice_perm _ _).trans ?_
    rw [← filterMap_kept_workerResult]
    exact hjobs.filterMap _
  · exact sortSlice_pairwise lessFilename lessFilename_asymm lessFilename_negTrans _


theorem pairwise_adjacent {α : Type} (R : α → α → Prop) (l : List α) (hl : l.Pairwise R)
    (i : Nat) (a b : α) (ha : l[i]? = some a) (hb : l[i + 1]? = some b) : R a b := by
  induction l generalizing i with
  | nil => simp at ha
  | cons x l ih =>
    rw [List.pairwise_cons] at hl
    cases i with
    | zero =>
      simp at ha hb
      subst ha
      exact hl.1 b (List.getElem?_mem hb)
    | succ i =>
      simp at ha hb
      exact ih hl.2 i ha hb

theorem length_filter_not {α : Type} (p : α → Bool) (l : List α) :
    (l.filter (fun x => !p x)).length = l.length - (l.filter p).length := by
  induction l with
  | nil => rfl
  | cons x l ih =>
    have hle : (l.filter p).length ≤ l.length := List.length_filter_le p l
    by_cases hx : p x = true
    · simp [List.filter_cons, hx, ih]
    · simp [List.filter_cons, hx, ih]
      omega

theorem calculateCRC32_readFails (fs : FS) (fPath : GoString) (h : readFails fs fPath = true) :
    calculateCRC32 fs fPath = 0 := by
  unfold readFails at h
  unfold calculateCRC32
  cases hopen : osOpen fs fPath with
  | none => rfl
  | some file =>
    rw [hopen] at h
    simp only at h
    simp [ioCopy, h]

theorem verifyLoop_eq (fs : FS) (files : List FileEntry) (out : List Output) :
    verifyLoop fs files out = out ++ files.map (fun e => Output.statusLine (checkEntry fs e)) := by
  induction files generalizing out with
  | nil => simp [verifyLoop]
  | cons e files ih => simp [verifyLoop, ih, checkEntry]

theorem mem_scan_files (fs : FS) (maxWorkers : Nat) (filesToProcess : List GoString)
    (schedule : List Event) (d : Data) (h : scan fs maxWorkers filesToProcess schedule = some d)
    (e : FileEntry) (he : e ∈ d.Files) :
    e = entryOf fs e.Filename ∧ e.Filename ∈ filesToProcess := by
  have hperm := (scan_files fs maxWorkers filesToProcess schedule d h).1
  have hmem := hperm.mem_iff.mp he
  simp only [List.mem_map, List.mem_filter] at hmem
  obtain ⟨p, ⟨hp, -⟩, rfl⟩ := hmem
  exact ⟨rfl, hp⟩

theorem runPool_sequential (fs : FS) (maxWorkers filesTotal : Nat) (hpos : 0 < maxWorkers)
    (s : PoolState) (hrun : s.running = []) (hsem : s.semaphore = 0) :
    ∃ t, runPool fs maxWorkers filesTotal s (sequentialSchedule s.pending.length) = some t ∧
      t.drained = true := by
  generalize hn : s.pending.length = n
  induction n generalizing s with
  | zero =>
    refine ⟨s, rfl, ?_⟩
    simp [PoolState.drained, hrun, List.length_eq_zero.mp hn]
  | succ n ih =>
    obtain ⟨path, rest, hp⟩ : ∃ path rest, s.pending = path :: rest := by
      cases hs : s.pending with
      | nil => simp [hs] at hn
      | cons path rest => exact ⟨path, rest, rfl⟩
    have hlen : rest.length = n := by simpa [hp] using hn
    obtain ⟨hpend, -, -⟩ := runWorker_frame fs filesTotal path
      { s with pending := rest, semaphore := 1, running := [path] }
    obtain ⟨t, ht, hd⟩ := ih
      { runWorker fs filesTotal path
          { s with pending := rest, semaphore := 1, running := [path] } with
        running := [], semaphore := 0 } rfl rfl
      (by simpa [hpend] using hlen)
    refine ⟨t, ?_, hd⟩
    simp only [hpend, hlen] at ht
    simp only [sequentialSchedule, runPool, step, hp, hsem, hpos, if_true, hrun,
      List.getElem?_cons_zero, List.nil_append, runWorker_frame]
    simpa [hpend] using ht

/-- A scan always has a complete run: the sequential one. -/
theorem scan_sequential (fs : FS) (maxWorkers : Nat) (filesToProcess : List GoString)
    (hpos : 0 < maxWorkers) (hne : filesToProcess ≠ []) :
    ∃ d, scan fs maxWorkers filesToProcess (sequentialSchedule filesToProcess.length) = some d := by
  obtain ⟨t, ht, hd⟩ := runPool_sequential fs maxWorkers filesToProcess.length hpos
    (PoolState.init filesToProcess) rfl rfl
  have hlen : filesToProcess.length ≠ 0 := by simpa using hne
  refine ⟨buildManifest t.results, ?_⟩
  unfold scan
  simp only [hlen, if_false]
  simp only [PoolState.init] at ht
  simp [PoolState.init, ht, hd]


/-! ## The checksum function -/

/-- C1: when the whole content `b` of a file is read without error,
`calculateCRC32` returns the reference CRC-32/IEEE of `b`; that value is `0`
for the empty content and `0xCBF43926` for the nine bytes `123456789`. -/
theorem calculateCRC32_reference (fs : FS) (filename : GoString) (b : List Byte)
    (h : fullContent fs filename = some b) :
    calculateCRC32 fs filename = crc32Reference b ∧
    (b = [] → calculateCRC32 fs filename = 0) ∧
    (b = [49, 50, 51, 52, 53, 54, 55, 56, 57] → calculateCRC32 fs filename = 0xCBF43926) := by
  have hcrc := calculateCRC32_of_fullContent fs filename b h
  refine ⟨hcrc, ?_, ?_⟩
  · intro hb
    rw [hcrc, hb]
    decide
  · intro hb
    rw [hcrc, hb]
    decide

/-- C1, instance: the file `a` of `exampleFS` holds `123456789`, read in two
chunks, and the file `b` is empty. -/
theorem calculateCRC32_reference_witness :
    (fullContent exampleFS [97] = some [49, 50, 51, 52, 53, 54, 55, 56, 57] ∧
      calculateCRC32 exampleFS [97] = 0xCBF43926) ∧
    (fullContent exampleFS [98] = some [] ∧ calculateCRC32 exampleFS [98] = 0) :=
  ⟨⟨by decide, (calculateCRC32_reference exampleFS [97] _ (by decide)).2.2 rfl⟩,
   ⟨by decide, (calculateCRC32_reference exampleFS [98] _ (by decide)).2.1 rfl⟩⟩

/-! ## The manifest of a scan -/

/-- C2, as stated, fails: when the listing of the directory returns the name `b`
twice, the gathered list holds the path `b` twice and the
manifest has two adjacent entries with the same filename, which are not in
strictly ascending order. -/
theorem manifest_strictly_ascending_counterexample :
    gatherFiles false true [] exampleTreeTwice = some [[98], [98]] ∧
    scan exampleFS 1 [[98], [98]] (sequentialSchedule 2)
      = some { Files := [⟨[98], 0⟩, ⟨[98], 0⟩], Version := "1.0.0", ZlibVersion := "1.2.11" } ∧
    ([⟨[98], 0⟩, ⟨[98], 0⟩] : List FileEntry)[0]? = some ⟨[98], 0⟩ ∧
    ([⟨[98], 0⟩, ⟨[98], 0⟩] : List FileEntry)[0 + 1]? = some ⟨[98], 0⟩ ∧
    stringLess (FileEntry.mk [98] 0).Filename (FileEntry.mk [98] 0).Filename = false := by
  decide

/-- C2, amended: in every manifest a scan produces, no entry has a filename
byte-wise less than that of the entry before it; and when the gathered paths
are pairwise distinct, every entry has a filename strictly greater than that
of the entry before it. -/
theorem manifest_ascending (fs : FS) (maxWorkers : Nat) (filesToProcess : List GoString)
    (schedule : List Event) (d : Data)
    (h : scan fs maxWorkers filesToProcess schedule = some d) :
    (∀ i a b, d.Files[i]? = some a → d.Files[i + 1]? = some b →
      stringLess b.Filename a.Filename = false) ∧
    (filesToProcess.Nodup → ∀ i a b, d.Files[i]? = some a → d.Files[i + 1]? = some b →
      stringLess a.Filename b.Filename = true) := by
  obtain ⟨hperm, hsorted, -, -⟩ := scan_files fs maxWorkers filesToProcess schedule d h
  refine ⟨fun i a b ha hb => pairwise_adjacent _ d.Files hsorted i a b ha hb, ?_⟩
  intro hnodup i a b ha hb
  have hnames : (d.Files.map FileEntry.Filename).Nodup := by
    have hp := hperm.map FileEntry.Filename
    rw [List.map_map] at hp
    have hid : (FileEntry.Filename ∘ entryOf fs) = id := rfl
    rw [hid, List.map_id] at hp
    exact hp.nodup_iff.mpr (hnodup.filter _)
  have hne : a.Filename ≠ b.Filename :=
    pairwise_adjacent _ d.Files (List.pairwise_map.mp hnames) i a b ha hb
  have hle : stringLess b.Filename a.Filename = false :=
    pairwise_adjacent _ d.Files hsorted i a b ha hb
  cases hlt : stringLess a.Filename b.Filename with
  | true => rfl
  | false => exact absurd (stringLess_connected _ _ hlt hle) hne

/-- C2, instance: scanning `b`, `a`, `c`, `d`, `e` of `exampleFS` on two
workers gives `a`, `b`, `c` in this order. -/
theorem manifest_ascending_witness :
    scan exampleFS 2 [[98], [97], [99], [100], [101]] exampleSchedule = some exampleManifest ∧
    [[98], [97], [99], [100], [101]].Nodup ∧
    stringLess [97] [98] = true ∧ stringLess [99] [98] = false :=
  ⟨by decide, by decide,
   (manifest_ascending exampleFS 2 [[98], [97], [99], [100], [101]] exampleSchedule
      exampleManifest (by decide)).2 (by decide) 0 ⟨[97], 0xCBF43926⟩ ⟨[98], 0⟩ rfl rfl,
   (manifest_ascending exampleFS 2 [[98], [97], [99], [100], [101]] exampleSchedule
      exampleManifest (by decide)).1 1 ⟨[98], 0⟩ ⟨[99], 0⟩ rfl rfl⟩

/-- C3: for one file system and one list of gathered paths, the manifests of
any two complete runs, whatever the order in which the jobs finish, have the
same `files` sequence (and are equal as a whole). -/
theorem scan_deterministic (fs : FS) (maxWorkers : Nat) (filesToProcess : List GoString)
    (schedule₁ schedule₂ : List Event) (d₁ d₂ : Data)
    (h₁ : scan fs maxWorkers filesToProcess schedule₁ = some d₁)
    (h₂ : scan fs maxWorkers filesToProcess schedule₂ = some d₂) :
    d₁.Files = d₂.Files ∧ d₁ = d₂ := by
  obtain ⟨hperm₁, hsorted₁, hv₁, hz₁⟩ := scan_files fs maxWorkers filesToProcess schedule₁ d₁ h₁
  obtain ⟨hperm₂, hsorted₂, hv₂, hz₂⟩ := scan_files fs maxWorkers filesToProcess schedule₂ d₂ h₂
  have hfiles : d₁.Files = d₂.Files := by
    refine List.Perm.eq_of_sorted ?_ hsorted₁ hsorted₂ (hperm₁.trans hperm₂.symm)
    intro a b ha hb hab hba
    have hname : a.Filename = b.Filename := stringLess_connected _ _ hba hab
    rw [(mem_scan_files fs maxWorkers filesToProcess schedule₁ d₁ h₁ a ha).1,
      (mem_scan_files fs maxWorkers filesToProcess schedule₂ d₂ h₂ b hb).1, hname]
  refine ⟨hfiles, ?_⟩
  cases d₁
  cases d₂
  simp only at hfiles hv₁ hv₂ hz₁ hz₂
  simp [hfiles, hv₁, hv₂, hz₁, hz₂]

/-- C3, instance: the overtaking schedule and the sequential one give the
same manifest. -/
theorem scan_deterministic_witness :
    scan exampleFS 2 [[98], [97], [99], [100], [101]] exampleSchedule = some exampleManifest ∧
    scan exampleFS 2 [[98], [97], [99], [100], [101]] (sequentialSchedule 5)
      = some exampleManifest ∧
    exampleManifest.Files = exampleManifest.Files ∧ exampleManifest = exampleManifest :=
  ⟨by decide, by decide,
   scan_deterministic exampleFS 2 [[98], [97], [99], [100], [101]] exampleSchedule
     (sequentialSchedule 5) exampleManifest exampleManifest (by decide) (by decide)⟩

/-- C4, as stated, fails: the file `c` passes the precondition check and then
cannot be opened, a failure of its read step; the manifest of scanning it has
one entry, not `1 - 1 = 0`. -/
theorem manifest_count_counterexample :
    preconditionFails exampleFS [99] = false ∧ readFails exampleFS [99] = true ∧
    scan exampleFS 1 [[99]] (sequentialSchedule 1)
      = some { Files := [⟨[99], 0⟩], Version := "1.0.0", ZlibVersion := "1.2.11" } ∧
    ([⟨[99], 0⟩] : List FileEntry).length ≠
      [[99]].length -
        ([[99]].filter (fun p => preconditionFails exampleFS p || readFails exampleFS p)).length := by
  decide

/-- C4, amended: the entries of the manifest are, up to order, one entry per
gathered path that passes the precondition check, so their number is the
number of gathered paths minus the number that fail that check; a path whose
read step fails keeps its entry, with checksum `0`. -/
theorem manifest_complete (fs : FS) (maxWorkers : Nat) (filesToProcess : List GoString)
    (schedule : List Event) (d : Data)
    (h : scan fs maxWorkers filesToProcess schedule = some d) :
    d.Files.length =
      filesToProcess.length - (filesToProcess.filter (preconditionFails fs)).length ∧
    d.Files.Perm
      ((filesToProcess.filter (fun p => !preconditionFails fs p)).map (entryOf fs)) ∧
    (∀ p ∈ filesToProcess, preconditionFails fs p = false → readFails fs p = true →
      { Filename := p, CRC := 0 } ∈ d.Files) := by
  obtain ⟨hperm, -, -, -⟩ := scan_files fs maxWorkers filesToProcess schedule d h
  refine ⟨?_, hperm, ?_⟩
  · rw [hperm.length_eq, List.length_map, length_filter_not]
  · intro p hp hpre hread
    refine hperm.mem_iff.mpr ?_
    simp only [List.mem_map, List.mem_filter]
    refine ⟨p, ⟨hp, by simp [hpre]⟩, ?_⟩
    simp [entryOf, calculateCRC32_readFails fs p hread]

/-- C4, instance: of `b`, `a`, `c`, `d`, `e` in `exampleFS`, the directory `d`
and the missing `e` fail the precondition check, and `c` fails its read step;
the manifest has `5 - 2 = 3` entries, that of `c` among them. -/
theorem manifest_complete_witness :
    scan exampleFS 2 [[98], [97], [99], [100], [101]] exampleSchedule = some exampleManifest ∧
    exampleManifest.Files.length = 5 - 2 ∧
    FileEntry.mk [99] 0 ∈ exampleManifest.Files :=
  ⟨by decide,
   (manifest_complete exampleFS 2 [[98], [97], [99], [100], [101]] exampleSchedule
      exampleManifest (by decide)).1,
   (manifest_complete exampleFS 2 [[98], [97], [99], [100], [101]] exampleSchedule
      exampleManifest (by decide)).2.2 [99] (by decide) (by decide) (by decide)⟩


/-! ## Verification -/

theorem jsonStringLoop_of_valid (s : GoString) (skip : Nat)
    (h : validStringLoop skip s = true) : jsonStringLoop skip s = s := by
  induction s generalizing skip with
  | nil => cases skip <;> rfl
  | cons b rest ih =>
    cases skip with
    | succ skip =>
      simp only [validStringLoop] at h
      simp only [jsonStringLoop, ih skip h]
    | zero =>
      simp only [validStringLoop] at h
      simp only [jsonStringLoop]
      cases hd : decodeRuneSize (b :: rest) with
      | none => simp [hd] at h
      | some size =>
        simp only [hd] at h
        simp only [ih (size - 1) h]

theorem jsonString_of_valid (s : GoString) (h : ValidString s = true) : jsonString s = s :=
  jsonStringLoop_of_valid s 0 h

theorem jsonUnmarshal_jsonMarshal (d : Data) (hcrc : ∀ e ∈ d.Files, e.CRC < 2 ^ 32) :
    jsonUnmarshal (jsonMarshal d) =
      some { Files := d.Files.map
               (fun e => { e with Filename := jsonString (jsonString e.Filename) }),
             Version := d.Version, ZlibVersion := d.ZlibVersion } := by
  have hall : (d.Files.map (fun e => ({ e with Filename := jsonString e.Filename } : FileEntry))).all
      (fun e => decide (e.CRC < 2 ^ 32)) = true := by
    simp only [List.all_eq_true, List.mem_map, decide_eq_true_eq]
    rintro e ⟨e0, he0, rfl⟩
    exact hcrc e0 he0
  simp only [jsonMarshal, jsonUnmarshal, hall, if_true, List.map_map]
  rfl

theorem scan_crc_lt (fs : FS) (maxWorkers : Nat) (filesToProcess : List GoString)
    (schedule : List Event) (d : Data) (h : scan fs maxWorkers filesToProcess schedule = some d)
    (e : FileEntry) (he : e ∈ d.Files) : e.CRC < 2 ^ 32 := by
  have hentry := (mem_scan_files fs maxWorkers filesToProcess schedule d h e he).1
  have hcrc : e.CRC = calculateCRC32 fs e.Filename := by
    conv_lhs => rw [hentry]
    rfl
  rw [hcrc]
  exact calculateCRC32_lt fs e.Filename

/-- The lines read mode prints for the file scan mode wrote: one per entry, for
the filename as it comes back from the JSON text. -/
theorem verifyWritten_scan (fs fsRead : FS) (maxWorkers : Nat) (filesToProcess : List GoString)
    (schedule : List Event) (d : Data) (h : scan fs maxWorkers filesToProcess schedule = some d) :
    verifyWritten fsRead d = d.Files.map (fun e =>
      Output.statusLine
        (checkEntry fsRead { e with Filename := jsonString (jsonString e.Filename) })) := by
  unfold verifyWritten readManifest
  simp only [jsonUnmarshal_jsonMarshal d (scan_crc_lt fs maxWorkers filesToProcess schedule d h),
    verifyCRC, verifyLoop_eq, List.nil_append, List.map_map]
  rfl

theorem verifyWritten_line (fs fsRead : FS) (maxWorkers : Nat) (filesToProcess : List GoString)
    (schedule : List Event) (d : Data) (h : scan fs maxWorkers filesToProcess schedule = some d)
    (i : Nat) (e : FileEntry) (he : d.Files[i]? = some e) (hvalid : ValidString e.Filename = true) :
    (verifyWritten fsRead d)[i]? = some (.statusLine (checkEntry fsRead e)) ∧
    e.CRC = calculateCRC32 fs e.Filename := by
  have hentry := (mem_scan_files fs maxWorkers filesToProcess schedule d h e
    (List.getElem?_mem he)).1
  refine ⟨?_, ?_⟩
  · rw [verifyWritten_scan fs fsRead maxWorkers filesToProcess schedule d h, List.getElem?_map, he]
    simp only [Option.map_some', jsonString_of_valid e.Filename hvalid]
  · conv_lhs => rw [hentry]
    rfl

/-- C5, as stated, fails: a file of `exampleFSName` has the name `FF`, which is
not valid UTF-8. The manifest written for it records the name `EF BF BD`, and
read mode on the unchanged directory finds no such file and reports `XX`. -/
theorem verify_after_scan_counterexample :
    scan exampleFSName 1 [[0xFF]] (sequentialSchedule 1)
      = some { Files := [⟨[0xFF], 0xCBF43926⟩], Version := "1.0.0", ZlibVersion := "1.2.11" } ∧
    jsonMarshal { Files := [⟨[0xFF], 0xCBF43926⟩], Version := "1.0.0", ZlibVersion := "1.2.11" }
      = .manifest [⟨[0xEF, 0xBF, 0xBD], 0xCBF43926⟩] "1.0.0" "1.2.11" ∧
    verifyWritten exampleFSName
        { Files := [⟨[0xFF], 0xCBF43926⟩], Version := "1.0.0", ZlibVersion := "1.2.11" }
      = [.statusLine { status := "XX", recorded := 0xCBF43926, current := 0,
                       filename := [0xEF, 0xBF, 0xBD] }] := by
  decide

theorem calculateCRC32_congr (fs fsRead : FS) (filename : GoString)
    (h : fsRead filename = fs filename) :
    calculateCRC32 fsRead filename = calculateCRC32 fs filename := by
  simp only [calculateCRC32, osOpen, h]

/-- C5, amended: a manifest is produced by a scan and written as JSON, and read
mode is run on that file in a directory where the scanned files are as they
were (`fsRead` may differ from `fs` elsewhere, as it does by the manifest file
itself). One line is printed per entry, and the line of every entry whose file
name is valid UTF-8 is a status line for that name with status `OK`; so every
line reports `OK` when all the names in the manifest are valid UTF-8. -/
theorem verify_after_scan (fs fsRead : FS) (maxWorkers : Nat) (filesToProcess : List GoString)
    (schedule : List Event) (d : Data)
    (h : scan fs maxWorkers filesToProcess schedule = some d)
    (hsame : ∀ e ∈ d.Files, fsRead e.Filename = fs e.Filename) :
    (verifyWritten fsRead d).length = d.Files.length ∧
    (∀ (i : Nat) (e : FileEntry), d.Files[i]? = some e → ValidString e.Filename = true →
      ∃ line : StatusLine, (verifyWritten fsRead d)[i]? = some (.statusLine line) ∧
        line.filename = e.Filename ∧ line.recorded = e.CRC ∧ line.status = "OK") ∧
    ((∀ e ∈ d.Files, ValidString e.Filename = true) →
      ∀ out ∈ verifyWritten fsRead d, ∃ line, out = .statusLine line ∧ line.status = "OK") := by
  have hline : ∀ (i : Nat) (e : FileEntry), d.Files[i]? = some e →
      ValidString e.Filename = true →
      ∃ line : StatusLine, (verifyWritten fsRead d)[i]? = some (.statusLine line) ∧
        line.filename = e.Filename ∧ line.recorded = e.CRC ∧ line.status = "OK" := by
    intro i e he hvalid
    obtain ⟨hget, hcrc⟩ :=
      verifyWritten_line fs fsRead maxWorkers filesToProcess schedule d h i e he hvalid
    have hread := calculateCRC32_congr fs fsRead e.Filename (hsame e (List.getElem?_mem he))
    exact ⟨checkEntry fsRead e, hget, rfl, rfl, by simp [checkEntry, hcrc, hread]⟩
  have hlen : (verifyWritten fsRead d).length = d.Files.length := by
    rw [verifyWritten_scan fs fsRead maxWorkers filesToProcess schedule d h, List.length_map]
  refine ⟨hlen, hline, ?_⟩
  intro hall out hout
  obtain ⟨i, hi⟩ := List.mem_iff_getElem?.mp hout
  have hlt : i < d.Files.length := by
    have := (List.getElem?_eq_some.mp hi).1
    omega
  obtain ⟨line, hget, -, -, hok⟩ := hline i d.Files[i] (List.getElem?_eq_getElem hlt)
    (hall _ (List.getElem_mem hlt))
  rw [hi] at hget
  exact ⟨line, Option.some.inj hget, hok⟩

/-- C5, instance: `exampleFS` is scanned, the manifest is written to the new
file `m` of the directory and read back; the names `a`, `b`, `c` are valid
UTF-8 and the three lines are `OK`. -/
theorem verify_after_scan_witness :
    scan exampleFS 2 [[98], [97], [99], [100], [101]] exampleSchedule = some exampleManifest ∧
    (∀ e ∈ exampleManifest.Files,
      (exampleFS.write [109] (.regular [[123, 125]] false)) e.Filename = exampleFS e.Filename) ∧
    (verifyWritten (exampleFS.write [109] (.regular [[123, 125]] false)) exampleManifest).length
      = 3 ∧
    (∃ line : StatusLine,
      (verifyWritten (exampleFS.write [109] (.regular [[123, 125]] false)) exampleManifest)[0]?
        = some (.statusLine line) ∧
      line.filename = [97] ∧ line.recorded = 0xCBF43926 ∧ line.status = "OK") ∧
    (∃ line, Output.statusLine ⟨"OK", 0, 0, [99]⟩ = .statusLine line ∧ line.status = "OK") :=
  ⟨by decide, by decide,
   (verify_after_scan exampleFS (exampleFS.write [109] (.regular [[123, 125]] false)) 2
      [[98], [97], [99], [100], [101]] exampleSchedule exampleManifest (by decide)
      (by decide)).1,
   (verify_after_scan exampleFS (exampleFS.write [109] (.regular [[123, 125]] false)) 2
      [[98], [97], [99], [100], [101]] exampleSchedule exampleManifest (by decide)
      (by decide)).2.1 0 ⟨[97], 0xCBF43926⟩ (by decide) (by decide),
   (verify_after_scan exampleFS (exampleFS.write [109] (.regular [[123, 125]] false)) 2
      [[98], [97], [99], [100], [101]] exampleSchedule exampleManifest (by decide)
      (by decide)).2.2 (by decide) (.statusLine ⟨"OK", 0, 0, [99]⟩) (by decide)⟩

/-- C6, as stated, fails, in two ways. The empty file `b` is scanned and the
manifest written, then the content of `b` is changed to the four bytes
`9D 0A D9 6D`, whose CRC-32 is `0` as well: read mode reports `OK` for it.
And when `b` and the file named `FF` are scanned and `b` alone is changed,
read mode reports `XX` for the other entry too, whose name came back from the
manifest as `EF BF BD`. -/
theorem verify_after_change_counterexample :
    (scan exampleFS 1 [[98]] (sequentialSchedule 1)
      = some { Files := [⟨[98], 0⟩], Version := "1.0.0", ZlibVersion := "1.2.11" } ∧
    fullContent exampleFS [98] = some [] ∧
    fullContent (exampleFS.write [98] (.regular [[157, 10, 217, 109]] false)) [98]
      = some [157, 10, 217, 109] ∧
    verifyWritten (exampleFS.write [98] (.regular [[157, 10, 217, 109]] false))
        { Files := [⟨[98], 0⟩], Version := "1.0.0", ZlibVersion := "1.2.11" }
      = [.statusLine { status := "OK", recorded := 0, current := 0, filename := [98] }]) ∧
    (scan exampleFSName 1 [[98], [0xFF]] (sequentialSchedule 2)
      = some { Files := [⟨[98], 0⟩, ⟨[0xFF], 0xCBF43926⟩], Version := "1.0.0",
               ZlibVersion := "1.2.11" } ∧
    fullContent exampleFSName [98] = some [] ∧
    fullContent (exampleFSName.write [98] (.regular [[0]] false)) [98] = some [0] ∧
    verifyWritten (exampleFSName.write [98] (.regular [[0]] false))
        { Files := [⟨[98], 0⟩, ⟨[0xFF], 0xCBF43926⟩], Version := "1.0.0",
          ZlibVersion := "1.2.11" }
      = [.statusLine { status := "XX", recorded := 0, current := 0xD202EF8D, filename := [98] },
         .statusLine { status := "XX", recorded := 0xCBF43926, current := 0,
                       filename := [0xEF, 0xBF, 0xBD] }]) := by
  decide

/-- C6, amended: a manifest is produced by a scan and written as JSON, then the
content of one file `path` is changed from `c` to `cNew`, the files of the
other entries stay as they were, and read mode is run on the written file. One
line is printed per entry. For every entry whose file name is valid UTF-8 the
line is a status line for that name: if the name is `path`, the status is `XX`
exactly when the CRC-32 of `cNew` differs from that of `c`, and `OK` exactly
when they are equal; if the name is another one, the status is `OK`. A
gathered `path` does have an entry. -/
theorem verify_after_change (fs fsNew : FS) (maxWorkers : Nat) (filesToProcess : List GoString)
    (schedule : List Event) (d : Data) (path : GoString) (c cNew : List Byte)
    (h : scan fs maxWorkers filesToProcess schedule = some d)
    (hold : fullContent fs path = some c)
    (hnew : fullContent fsNew path = some cNew)
    (hsame : ∀ e ∈ d.Files, e.Filename ≠ path → fsNew e.Filename = fs e.Filename) :
    (verifyWritten fsNew d).length = d.Files.length ∧
    (∀ (i : Nat) (e : FileEntry), d.Files[i]? = some e → ValidString e.Filename = true →
      ∃ line : StatusLine, (verifyWritten fsNew d)[i]? = some (.statusLine line) ∧
        line.filename = e.Filename ∧ line.recorded = e.CRC ∧
        (e.Filename = path →
          (line.status = "XX" ↔ crc32Reference cNew ≠ crc32Reference c) ∧
          (line.status = "OK" ↔ crc32Reference cNew = crc32Reference c)) ∧
        (e.Filename ≠ path → line.status = "OK")) ∧
    (path ∈ filesToProcess →
      ∃ (i : Nat) (e : FileEntry), d.Files[i]? = some e ∧ e.Filename = path) := by
  have hc := calculateCRC32_of_fullContent fs path c hold
  have hcn := calculateCRC32_of_fullContent fsNew path cNew hnew
  refine ⟨?_, ?_, ?_⟩
  · rw [verifyWritten_scan fs fsNew maxWorkers filesToProcess schedule d h, List.length_map]
  · intro i e he hvalid
    obtain ⟨hget, hcrc⟩ :=
      verifyWritten_line fs fsNew maxWorkers filesToProcess schedule d h i e he hvalid
    refine ⟨checkEntry fsNew e, hget, rfl, rfl, ?_, ?_⟩
    · intro hname
      simp only [checkEntry, hcrc, hname, hc, hcn]
      by_cases heq : crc32Reference cNew = crc32Reference c <;> simp [heq]
    · intro hname
      have hfs : calculateCRC32 fsNew e.Filename = calculateCRC32 fs e.Filename :=
        calculateCRC32_congr fs fsNew e.Filename (hsame e (List.getElem?_mem he) hname)
      simp [checkEntry, hcrc, hfs]
  · intro hpath
    have hpre : preconditionFails fs path = false := by
      unfold fullContent at hold
      unfold preconditionFails osStat
      split at hold
      · rename_i reads hfs
        simp [hfs]
      · simp at hold
    have hmem : entryOf fs path ∈ d.Files := by
      refine (scan_files fs maxWorkers filesToProcess schedule d h).1.mem_iff.mpr ?_
      simp only [List.mem_map, List.mem_filter]
      exact ⟨path, ⟨hpath, by simp [hpre]⟩, rfl⟩
    obtain ⟨i, hi⟩ := List.mem_iff_getElem?.mp hmem
    exact ⟨i, entryOf fs path, hi, rfl⟩

/-- C6, instance: `a` and `b` are scanned, then the empty `b` receives the one
byte `00`, whose CRC-32 is not `0`: `XX` for `b`, `OK` for `a`. -/
theorem verify_after_change_witness :
    scan exampleFS 1 [[97], [98]] (sequentialSchedule 2)
      = some { Files := [⟨[97], 0xCBF43926⟩, ⟨[98], 0⟩], Version := "1.0.0",
               ZlibVersion := "1.2.11" } ∧
    fullContent exampleFS [98] = some [] ∧
    fullContent (exampleFS.write [98] (.regular [[0]] false)) [98] = some [0] ∧
    (∀ e ∈ ([⟨[97], 0xCBF43926⟩, ⟨[98], 0⟩] : List FileEntry), e.Filename ≠ [98] →
      (exampleFS.write [98] (.regular [[0]] false)) e.Filename = exampleFS e.Filename) ∧
    verifyWritten (exampleFS.write [98] (.regular [[0]] false))
        { Files := [⟨[97], 0xCBF43926⟩, ⟨[98], 0⟩], Version := "1.0.0", ZlibVersion := "1.2.11" }
      = [.statusLine ⟨"OK", 0xCBF43926, 0xCBF43926, [97]⟩,
         .statusLine ⟨"XX", 0, 0xD202EF8D, [98]⟩] ∧
    (∃ line,
      (verifyWritten (exampleFS.write [98] (.regular [[0]] false))
        { Files := [⟨[97], 0xCBF43926⟩, ⟨[98], 0⟩], Version := "1.0.0",
          ZlibVersion := "1.2.11" })[1]? = some (.statusLine line) ∧
      line.filename = [98] ∧ line.recorded = 0 ∧
      (([98] : GoString) = [98] →
        (line.status = "XX" ↔ crc32Reference [0] ≠ crc32Reference []) ∧
        (line.status = "OK" ↔ crc32Reference [0] = crc32Reference [])) ∧
      (([98] : GoString) ≠ [98] → line.status = "OK")) :=
  ⟨by decide, by decide, by decide, by decide, by decide,
   (verify_after_change exampleFS (exampleFS.write [98] (.regular [[0]] false)) 1 [[97], [98]]
     (sequentialSchedule 2)
     { Files := [⟨[97], 0xCBF43926⟩, ⟨[98], 0⟩], Version := "1.0.0", ZlibVersion := "1.2.11" }
     [98] [] [0] (by decide) (by decide) (by decide) (by decide)).2.1 1 ⟨[98], 0⟩
     (by decide) (by decide)⟩

/-- C7: for a manifest that parses, `verifyCRC` prints exactly one status line
per entry, in manifest order, whatever the outcome for the entries before; the
line of an entry carries its filename and recorded checksum, and its status is
`OK` exactly when the recomputed checksum equals the recorded one, `XX`
otherwise. -/
theorem verifyCRC_lines (fs : FS) (data : Data) :
    (verifyCRC fs (.parsed data)).length = data.Files.length ∧
    ∀ i (hi : i < data.Files.length), ∃ line,
      (verifyCRC fs (.parsed data))[i]? = some (.statusLine line) ∧
      line.filename = data.Files[i].Filename ∧
      line.recorded = data.Files[i].CRC ∧
      line.current = calculateCRC32 fs data.Files[i].Filename ∧
      (line.status = "OK" ↔
        calculateCRC32 fs data.Files[i].Filename = data.Files[i].CRC) ∧
      (line.status = "XX" ↔
        calculateCRC32 fs data.Files[i].Filename ≠ data.Files[i].CRC) := by
  simp only [verifyCRC, verifyLoop_eq, List.nil_append, List.length_map, true_and]
  intro i hi
  refine ⟨checkEntry fs data.Files[i], ?_, rfl, rfl, rfl, ?_, ?_⟩
  · simp [List.getElem?_map, List.getElem?_eq_getElem hi]
  · simp only [checkEntry]
    split <;> simp [*]
  · simp only [checkEntry]
    split <;> simp [*]

/-- C7, instance: a manifest whose second entry does not match and whose third
entry cannot be read; all three lines are printed. -/
theorem verifyCRC_lines_witness :
    (2 < ([⟨[97], 0xCBF43926⟩, ⟨[98], 1⟩, ⟨[99], 0⟩] : List FileEntry).length) ∧
    verifyCRC exampleFS (.parsed ⟨[⟨[97], 0xCBF43926⟩, ⟨[98], 1⟩, ⟨[99], 0⟩], "1.0.0", "1.2.11"⟩)
      = [.statusLine ⟨"OK", 0xCBF43926, 0xCBF43926, [97]⟩, .statusLine ⟨"XX", 1, 0, [98]⟩,
         .statusLine ⟨"OK", 0, 0, [99]⟩] ∧
    ∃ line,
      (verifyCRC exampleFS
        (.parsed ⟨[⟨[97], 0xCBF43926⟩, ⟨[98], 1⟩, ⟨[99], 0⟩], "1.0.0", "1.2.11"⟩))[2]?
          = some (.statusLine line) ∧
      line.filename = [99] ∧ line.recorded = 0 ∧ line.current = calculateCRC32 exampleFS [99] ∧
      (line.status = "OK" ↔ calculateCRC32 exampleFS [99] = 0) ∧
      (line.status = "XX" ↔ calculateCRC32 exampleFS [99] ≠ 0) :=
  ⟨by decide, by decide,
   (verifyCRC_lines exampleFS
      ⟨[⟨[97], 0xCBF43926⟩, ⟨[98], 1⟩, ⟨[99], 0⟩], "1.0.0", "1.2.11"⟩).2 2 (by decide)⟩

/-! ## The worker pool -/

/-- C8, the code at the failing input: `a` and the missing path `e` are
gathered; after the pool has drained, two jobs were dispatched and two results
sent, but `processedCount` is `1` and the only progress line is `[1 / 2]`: the
job that failed its precondition check was not counted and the count never
reaches the total. -/
theorem progress_counter_misses_failed_job :
    preconditionFails exampleFS [101] = true ∧
    ∃ s, runPool exampleFS 2 2 (PoolState.init [[97], [101]]) (sequentialSchedule 2) = some s ∧
      s.drained = true ∧ s.results.length = 2 ∧ s.processedCount = 1 ∧
      s.progress = [{ newCount := 1, filesTotal := 2 }] :=
  ⟨by decide,
   ⟨{ pending := [], semaphore := 0, running := [],
      results := [{ entry := ⟨[97], 0xCBF43926⟩, err := none },
                  { entry := ⟨[], 0⟩, err := some "invalid file" }],
      processedCount := 1, progress := [{ newCount := 1, filesTotal := 2 }] },
    by decide, by decide, by decide, by decide, by decide⟩⟩

/-- C10: in every state a scan can reach, the goroutines started and not yet
returned are at most `maxWorkers` and hold one token of `semaphore` each; when
there are `maxWorkers` of them the dispatch loop cannot take its next path; and
a step that lowers the number of tokens is the end of a running goroutine. -/
theorem pool_bounded (fs : FS) (maxWorkers filesTotal : Nat) (filesToProcess : List GoString)
    (schedule : List Event) (s : PoolState)
    (h : runPool fs maxWorkers filesTotal (PoolState.init filesToProcess) schedule = some s) :
    s.running.length ≤ maxWorkers ∧
    s.semaphore = s.running.length ∧
    (s.running.length = maxWorkers → step fs maxWorkers filesTotal s .dispatch = none) ∧
    (∀ e t, step fs maxWorkers filesTotal s e = some t → t.semaphore < s.semaphore →
      ∃ i fPath, e = .finish i ∧ s.running[i]? = some fPath ∧
        t.running = s.running.eraseIdx i ∧ t.results = s.results ++ [workerResult fs fPath]) := by
  have hinv := PoolInv_runPool fs maxWorkers filesTotal filesToProcess schedule _ s
    (PoolInv_init fs maxWorkers filesToProcess) h
  refine ⟨hinv.bound, hinv.tokens, ?_, ?_⟩
  · intro hfull
    unfold step
    simp only
    split
    · rfl
    · simp [hinv.tokens, hfull]
  · intro e t hstep hlt
    cases e with
    | dispatch =>
      unfold step at hstep
      simp only at hstep
      split at hstep
      · simp at hstep
      · split at hstep
        · simp only [Option.some.injEq] at hstep
          subst hstep
          simp at hlt
        · simp at hstep
    | finish i =>
      unfold step at hstep
      simp only at hstep
      split at hstep
      · simp at hstep
      · rename_i fPath hi
        simp only [Option.some.injEq] at hstep
        subst hstep
        exact ⟨i, fPath, rfl, hi, by simp [(runWorker_frame fs filesTotal fPath s).2.1],
          by simp [runWorker_results]⟩

/-- C10, instance: five jobs on two workers; after two dispatches both slots
are taken and a third dispatch is not possible. -/
theorem pool_bounded_witness :
    runPool exampleFS 2 5 (PoolState.init [[98], [97], [99], [100], [101]])
        [.dispatch, .dispatch]
      = some { pending := [[99], [100], [101]], semaphore := 2, running := [[98], [97]],
               results := [], processedCount := 0, progress := [] } ∧
    ([[98], [97]] : List GoString).length ≤ 2 ∧
    step exampleFS 2 5
        { pending := [[99], [100], [101]], semaphore := 2, running := [[98], [97]],
          results := [], processedCount := 0, progress := [] } .dispatch = none :=
  ⟨by decide,
   (pool_bounded exampleFS 2 5 [[98], [97], [99], [100], [101]] [.dispatch, .dispatch]
      { pending := [[99], [100], [101]], semaphore := 2, running := [[98], [97]],
        results := [], processedCount := 0, progress := [] } (by decide)).1,
   (pool_bounded exampleFS 2 5 [[98], [97], [99], [100], [101]] [.dispatch, .dispatch]
      { pending := [[99], [100], [101]], semaphore := 2, running := [[98], [97]],
        results := [], processedCount := 0, progress := [] } (by decide)).2.2.1 rfl⟩


/-! ## Gathering the file paths -/

theorem nonDirs_append (l₁ l₂ : List (GoString × Bool)) :
    nonDirs (l₁ ++ l₂) = nonDirs l₁ ++ nonDirs l₂ := by
  simp [nonDirs]

mutual
theorem walkDir_walkFn (path : GoString) : (node : DirNode) → (acc : List GoString) →
    ∃ found rest,
      walkDir walkFn path node acc
        = (acc ++ found, if errorFree node then none else some WalkError.readDir) ∧
      found ++ rest = reachableFiles path node ∧
      (errorFree node = true → rest = [])
  | .file, acc => by
    refine ⟨[path], [], ?_, ?_, fun _ => rfl⟩
    · simp [walkDir, walkFn, errorFree]
    · simp [reachableFiles, reachableEntries, nonDirs]
  | .dir entries readError, acc => by
    cases readError with
    | true =>
      refine ⟨[], [], ?_, ?_, fun _ => rfl⟩
      · simp [walkDir, walkFn, errorFree]
      · simp [reachableFiles, reachableEntries, nonDirs]
    | false =>
      obtain ⟨found, rest, hwalk, hreach, hfree⟩ := walkDirEntries_walkFn path entries acc
      refine ⟨found, rest, ?_, ?_, ?_⟩
      · simp [walkDir, walkFn, errorFree, hwalk]
      · simpa [reachableFiles, reachableEntries, nonDirs] using hreach
      · intro h
        exact hfree (by simpa [errorFree] using h)
theorem walkDirEntries_walkFn (path : GoString) : (entries : DirEntries) →
    (acc : List GoString) →
    ∃ found rest,
      walkDirEntries walkFn path entries acc
        = (acc ++ found, if errorFreeIn entries then none else some WalkError.readDir) ∧
      found ++ rest = nonDirs (reachableEntriesIn path entries) ∧
      (errorFreeIn entries = true → rest = [])
  | .nil, acc => by
    refine ⟨[], [], ?_, ?_, fun _ => rfl⟩
    · simp [walkDirEntries, errorFreeIn]
    · simp [reachableEntriesIn, nonDirs]
  | .cons name node others, acc => by
    obtain ⟨f₁, r₁, hwalk₁, hreach₁, hfree₁⟩ := walkDir_walkFn (Join path name) node acc
    cases hnode : errorFree node with
    | false =>
      refine ⟨f₁, r₁ ++ nonDirs (reachableEntriesIn path others), ?_, ?_, ?_⟩
      · simp [walkDirEntries, hwalk₁, hnode, errorFreeIn]
      · rw [← List.append_assoc, hreach₁, reachableEntriesIn, nonDirs_append]
        rfl
      · intro h
        simp [errorFreeIn, hnode] at h
    | true =>
      obtain ⟨f₂, r₂, hwalk₂, hreach₂, hfree₂⟩ := walkDirEntries_walkFn path others (acc ++ f₁)
      have hr₁ : r₁ = [] := hfree₁ hnode
      subst hr₁
      refine ⟨f₁ ++ f₂, r₂, ?_, ?_, ?_⟩
      · simp [walkDirEntries, hwalk₁, hnode, hwalk₂, errorFreeIn]
      · rw [List.append_assoc, hreach₂, reachableEntriesIn, nonDirs_append]
        simp only [List.append_nil] at hreach₁
        rw [hreach₁]
        rfl
      · intro h
        exact hfree₂ (by simpa [errorFreeIn, hnode] using h)
end

theorem WalkDir_walkFn (cwd : DirNode) :
    ∃ found rest,
      WalkDir [46] cwd walkFn []
        = (found, if errorFree cwd then none else some WalkError.readDir) ∧
      found ++ rest = reachableFiles [46] cwd ∧
      (errorFree cwd = true → rest = []) := by
  obtain ⟨found, rest, hwalk, hreach, hfree⟩ := walkDir_walkFn [46] cwd []
  refine ⟨found, rest, ?_, hreach, hfree⟩
  unfold WalkDir
  rw [hwalk]
  cases errorFree cwd <;> simp

theorem appendNonDirs_eq : (entries : DirEntries) → (acc : List GoString) →
    appendNonDirs entries acc = acc ++ nonDirs (children entries)
  | .nil, acc => by simp [appendNonDirs, children, nonDirs]
  | .cons name node rest, acc => by
    have ih := appendNonDirs_eq rest
    unfold appendNonDirs
    cases h : node.IsDir <;> simp [h, ih, children, nonDirs]

theorem mem_nonDirs (entries : List (GoString × Bool)) (p : GoString) :
    p ∈ nonDirs entries ↔ (p, false) ∈ entries := by
  simp [nonDirs]


/-- C9, as stated, fails: in `exampleTree` the directory `a` cannot be listed
and `b` is a file of the root, reached without error by a traversal that goes
on after the error; the recursive walk of the program stops at `a` and `b` is
not among the files to process. -/
theorem gatherFiles_error_counterexample :
    gatherFiles true true [] exampleTree = some [] ∧
    [98] ∈ reachableFiles [46] exampleTree ∧
    ([98] : GoString) ∉ ([] : List GoString) := by
  decide

theorem takeWhile_append_of_not_all {α : Type} (p : α → Bool) (l₁ l₂ : List α)
    (h : l₁.all p = false) : (l₁ ++ l₂).takeWhile p = l₁.takeWhile p := by
  induction l₁ with
  | nil => simp at h
  | cons x l ih =>
    by_cases hx : p x = true
    · have hl : l.all p = false := by simpa [List.all_cons, hx] using h
      simp [List.takeWhile_cons, hx, ih hl]
    · simp [List.takeWhile_cons, hx]

theorem takeWhile_of_all {α : Type} (p : α → Bool) (l : List α) (h : l.all p = true) :
    l.takeWhile p = l := by
  induction l with
  | nil => rfl
  | cons x l ih =>
    simp only [List.all_cons, Bool.and_eq_true] at h
    simp [List.takeWhile_cons, h.1, ih h.2]

mutual
theorem walkDir_visits (path : GoString) : (node : DirNode) → (acc : List GoString) →
    walkDir walkFn path node acc
      = (acc ++ nonDirs (((visits path node).takeWhile (fun v => !v.2)).map (fun v => v.1)),
         if (visits path node).all (fun v => !v.2) then none else some WalkError.readDir)
  | .file, acc => by
    simp [walkDir, walkFn, visits, nonDirs]
  | .dir entries readError, acc => by
    cases readError with
    | true => simp [walkDir, walkFn, visits, nonDirs]
    | false =>
      have ih := walkDirEntries_visits path entries acc
      have hdir : ∀ l : List (GoString × Bool), nonDirs ((path, true) :: l) = nonDirs l := by
        intro l
        simp [nonDirs]
      simp only [walkDir, walkFn, visits, Bool.false_eq_true, if_false, List.takeWhile_cons,
        Bool.not_false, if_true, List.map_cons, List.all_cons, Bool.true_and, hdir]
      exact ih
theorem walkDirEntries_visits (path : GoString) : (entries : DirEntries) →
    (acc : List GoString) →
    walkDirEntries walkFn path entries acc
      = (acc ++ nonDirs (((visitsIn path entries).takeWhile (fun v => !v.2)).map (fun v => v.1)),
         if (visitsIn path entries).all (fun v => !v.2) then none else some WalkError.readDir)
  | .nil, acc => by
    simp [walkDirEntries, visitsIn, nonDirs]
  | .cons name node others, acc => by
    have ih₁ := walkDir_visits (Join path name) node acc
    cases hall : (visits (Join path name) node).all (fun v => !v.2) with
    | false =>
      rw [hall] at ih₁
      have htake := takeWhile_append_of_not_all (fun v : (GoString × Bool) × Bool => !v.2)
        (visits (Join path name) node) (visitsIn path others) hall
      have hall₂ : (visits (Join path name) node ++ visitsIn path others).all
          (fun v => !v.2) = false := by
        rw [List.all_append, hall]
        rfl
      simp only [walkDirEntries, ih₁, visitsIn, htake, hall₂]
      simp
    | true =>
      rw [hall] at ih₁
      have ih₂ := walkDirEntries_visits path others
        (acc ++ nonDirs (((visits (Join path name) node).takeWhile
          (fun v => !v.2)).map (fun v => v.1)))
      have hself := takeWhile_of_all (fun v : (GoString × Bool) × Bool => !v.2)
        (visits (Join path name) node) hall
      have htake : (visits (Join path name) node ++ visitsIn path others).takeWhile
          (fun v => !v.2)
          = visits (Join path name) node ++ (visitsIn path others).takeWhile (fun v => !v.2) :=
        List.takeWhile_append_of_pos (fun a ha => List.all_eq_true.mp hall a ha)
      have hall₂ : (visits (Join path name) node ++ visitsIn path others).all (fun v => !v.2)
          = (visitsIn path others).all (fun v => !v.2) := by
        rw [List.all_append, hall]
        rfl
      rw [hself] at ih₁ ih₂
      simp only [walkDirEntries, ih₁, if_true, ih₂, visitsIn, htake, hall₂, List.map_append,
        nonDirs_append, List.append_assoc]
end

theorem gatherFiles_recursive (infoIsDir : Bool) (base : GoString) (cwd : DirNode) :
    gatherFiles true infoIsDir base cwd = some (filesBeforeError [46] cwd) := by
  simp only [gatherFiles, if_true, WalkDir, walkDir_visits, List.nil_append, filesBeforeError]
  cases (visits [46] cwd).all (fun v => !v.2) <;> simp

/-- C9, amended: in recursive mode the traversal ends at the first directory
that cannot be listed. The files to process are exactly the non-directory
entries visited before it, in traversal order: what was found is kept and the
run goes on with it, and no entry after the error is visited. Without any
error every non-directory entry is included. In directory mode without
recursion, a working directory that cannot be listed ends the run, and
otherwise every non-directory child is included. A directory is never
included. -/
theorem gatherFiles_spec (infoIsDir : Bool) (base : GoString) (cwd : DirNode)
    (entries : DirEntries) :
    gatherFiles true infoIsDir base cwd = some (filesBeforeError [46] cwd) ∧
    (∀ (before after : List ((GoString × Bool) × Bool)) (v : (GoString × Bool) × Bool),
      visits [46] cwd = before ++ v :: after → v.2 = true → (∀ u ∈ before, u.2 = false) →
      gatherFiles true infoIsDir base cwd = some (nonDirs (before.map (fun u => u.1)))) ∧
    (errorFree cwd = true →
      gatherFiles true infoIsDir base cwd = some (reachableFiles [46] cwd)) ∧
    (∀ p ∈ filesBeforeError [46] cwd, (p, false) ∈ reachableEntries [46] cwd) ∧
    gatherFiles false true base (.dir entries true) = none ∧
    gatherFiles false true base (.dir entries false) = some (nonDirs (children entries)) ∧
    (∀ p ∈ nonDirs (children entries), (p, false) ∈ children entries) := by
  have hrec := gatherFiles_recursive infoIsDir base cwd
  obtain ⟨found, rest, hwalk, hreach, hfree⟩ := WalkDir_walkFn cwd
  have hfound : found = filesBeforeError [46] cwd := by
    have hg : gatherFiles true infoIsDir base cwd = some found := by
      simp [gatherFiles, hwalk]
    rw [hrec] at hg
    exact (Option.some.inj hg).symm
  refine ⟨hrec, ?_, ?_, ?_, ?_, ?_, ?_⟩
  · intro before after v hvisits hv hbefore
    rw [hrec, filesBeforeError, hvisits]
    have hpos : ∀ u ∈ before, (fun w : (GoString × Bool) × Bool => !w.2) u = true := by
      intro u hu
      simp [hbefore u hu]
    rw [List.takeWhile_append_of_pos hpos]
    simp [List.takeWhile_cons, hv]
  · intro h
    have hrest := hfree h
    subst hrest
    rw [hrec, ← hfound]
    simpa using congrArg some hreach
  · intro p hp
    have hmem : p ∈ reachableFiles [46] cwd := by
      rw [← hreach, hfound]
      exact List.mem_append_left _ hp
    exact (mem_nonDirs _ p).mp hmem
  · simp [gatherFiles]
  · simp [gatherFiles, appendNonDirs_eq]
  · intro p hp
    exact (mem_nonDirs _ p).mp hp

/-- C9, instance: in `exampleTreeMiddle` the walk visits `.`, `a`, `a/x`, then
the directory `b` that cannot be listed; `a/x` is kept and `c`, which comes
after `b`, is left out. In `exampleTreeOk` nothing fails and every file is
found. -/
theorem gatherFiles_spec_witness :
    visits [46] exampleTreeMiddle
      = [(([46], true), false), (([97], true), false), (([97, 47, 120], false), false)]
        ++ (([98], true), true) :: [(([99], false), false)] ∧
    gatherFiles true true [] exampleTreeMiddle = some [[97, 47, 120]] ∧
    errorFree exampleTreeOk = true ∧
    gatherFiles true true [] exampleTreeOk = some [[122], [97, 47, 120], [98]] :=
  ⟨by decide,
   (gatherFiles_spec true [] exampleTreeMiddle .nil).2.1
     [(([46], true), false), (([97], true), false), (([97, 47, 120], false), false)]
     [(([99], false), false)] (([98], true), true) (by decide) rfl (by decide),
   by decide,
   (gatherFiles_spec true [] exampleTreeOk .nil).2.2.1 (by decide)⟩

end Crcsum
